import Mathlib

/- Verification of the PDF-simplifier core: the text extraction of src/app.py
and src/pdf_text_extractor.py, the three-way section splitting of the simplify
handler (src/app.py lines 248-250), and the paginated renderer generate_pdf
(src/app.py lines 128-195).  Program strings are modelled as lists of
characters.  Two distinct whitespace classes of CPython are kept apart:
textwrap builds both its munging table and its wordsep pattern from the six
ASCII characters of string.whitespace (isSpace), while str.strip with no
argument removes the full Unicode whitespace class of str.isspace
(isStripSpace), a strict superset.  All numeric layout state of the renderer
is integer valued (page height 792, margins 50/60, line height 14), so the
float cursor of reportlab is modelled exactly by Int. -/

/-- Program strings, as lists of characters. -/
abbrev Str : Type := List Char

/-- Converts a Lean string literal to the list-of-characters form. -/
def toL (s : String) : Str := s.toList

/-- The six whitespace characters of Python's string.whitespace, the table
textwrap._whitespace: this is exactly the set _munge_whitespace translates to
a space, and exactly the character class of the wordsep_re chunk pattern,
both built from that table. -/
def isSpace (c : Char) : Bool :=
  c == ' ' || c == '\t' || c == '\n' || c == '\x0b' || c == '\x0c' || c == '\r'

/-- The whitespace class of Python str.isspace, which is the set str.strip()
with no argument removes: the six ASCII whitespace characters together with
the remaining Unicode whitespace code points (the C0 separators 1c-1f, NEL,
no-break space, ogham space mark, the en-quad..hair-space block, line and
paragraph separators, narrow no-break space, medium mathematical space, and
ideographic space). -/
def isStripSpace (c : Char) : Bool :=
  isSpace c || c == '\x1c' || c == '\x1d' || c == '\x1e' || c == '\x1f' ||
  c == '\x85' || c == '\xa0' || c == '\u1680' || c == '\u2000' || c == '\u2001' ||
  c == '\u2002' || c == '\u2003' || c == '\u2004' || c == '\u2005' || c == '\u2006' ||
  c == '\u2007' || c == '\u2008' || c == '\u2009' || c == '\u200a' || c == '\u2028' ||
  c == '\u2029' || c == '\u202f' || c == '\u205f' || c == '\u3000'

/-- Python str.strip(): removes leading and trailing Unicode whitespace. -/
def pyStrip (s : Str) : Str := List.rdropWhile isStripSpace (s.dropWhile isStripSpace)

/-- Python str.lstrip(chars): removes the leading run of characters drawn
from the given set. -/
def pyLstrip (chars : Str) (s : Str) : Str := s.dropWhile (fun c => chars.contains c)

/-- Index of the first occurrence of sep as a contiguous substring of s, if
any, as used by Python str.split and str.replace when scanning left to
right. -/
def firstOcc (sep : Str) : Str → Option Nat
  | [] => if sep.isPrefixOf ([] : Str) then some 0 else none
  | c :: rest =>
    if sep.isPrefixOf (c :: rest) then some 0
    else (firstOcc sep rest).map (· + 1)

/-- Fuelled worker for Python str.split(sep) with nonempty sep: the piece
before the first occurrence of sep, then recursively the pieces of the
remainder.  The fuel given by pythonSplit always suffices, because each step
removes at least one character. -/
def pySplitAux (sep : Str) : Nat → Str → List Str
  | 0, s => [s]
  | fuel + 1, s =>
    match firstOcc sep s with
    | none => [s]
    | some i => s.take i :: pySplitAux sep fuel (s.drop (i + sep.length))

/-- Python str.split(sep) for a nonempty separator (the program only splits
on the literal delimiter strings and on a newline). -/
def pythonSplit (sep s : Str) : List Str :=
  if sep = [] then [s] else pySplitAux sep (s.length + 1) s

/-- Fuelled worker for Python str.replace(old, new) with nonempty old:
replaces every non-overlapping occurrence, scanning left to right. -/
def pyReplAux (old new : Str) : Nat → Str → Str
  | 0, s => s
  | fuel + 1, s =>
    match firstOcc old s with
    | none => s
    | some i => s.take i ++ new ++ pyReplAux old new fuel (s.drop (i + old.length))

/-- Python str.replace(old, new) for a nonempty old string. -/
def pythonReplace (old new s : Str) : Str :=
  if old = [] then s else pyReplAux old new (s.length + 1) s

/-- The literal section-1 delimiter of the delimiter protocol. -/
def sec1full : Str := toL "=== SECTION 1: SIMPLIFIED TEXT ==="

/-- The short marker the handler splits on to find the start of section 2. -/
def sec2pfx : Str := toL "=== SECTION 2"

/-- The full section-2 delimiter. -/
def sec2full : Str := toL "=== SECTION 2: BULLET POINT SUMMARY ==="

/-- The short marker the handler splits on to find the start of section 3. -/
def sec3pfx : Str := toL "=== SECTION 3"

/-- The full section-3 delimiter. -/
def sec3full : Str := toL "=== SECTION 3: GLOSSARY ==="

/-- The three named sections recovered from one response blob. -/
structure SectionBundle where
  simplified : Str
  bullets : Str
  glossary : Str
deriving DecidableEq

/-- The section splitting of the simplify handler, src/app.py lines 248-250:
simplified is the text before the first occurrence of the section-2 marker,
with the section-1 delimiter removed and stripped; bullets is element 1 of
the split on the full section-2 delimiter, cut at the first section-3 marker
and stripped; glossary is element 1 of the split on the full section-3
delimiter, stripped.  Python list indexing with [1] raises IndexError when
the split produced fewer than two pieces; that exception is modelled by
Except.error. -/
def parseSections (output : Str) : Except String SectionBundle :=
  let simplified :=
    pyStrip (pythonReplace sec1full [] ((pythonSplit sec2pfx output).headD []))
  match (pythonSplit sec2full output).get? 1 with
  | none => Except.error "IndexError: list index out of range"
  | some afterTwo =>
    let bullets := pyStrip ((pythonSplit sec3pfx afterTwo).headD [])
    match (pythonSplit sec3full output).get? 1 with
    | none => Except.error "IndexError: list index out of range"
    | some afterThree => Except.ok ⟨simplified, bullets, pyStrip afterThree⟩

/-- Outcome of one page.extract_text() call inside the extraction loop:
either it returns (Python returns an Optional string, None modelled by
Option.none), or it raises an exception. -/
inductive PageResult
  | ok (content : Option Str)
  | err
deriving DecidableEq

/-- Python truthiness of the optional page content: None and the empty
string are falsy, so the loop body `if content:` skips both. -/
def pageTruthy : Option Str → Bool
  | none => false
  | some s => !s.isEmpty

/-- Whether a page's extract_text() call raises. -/
def pageErr : PageResult → Bool
  | PageResult.ok _ => false
  | PageResult.err => true

/-- The page loop shared by both extract_pdf_text variants
(src/app.py lines 113-117, src/pdf_text_extractor.py lines 11-15):
text starts empty and each truthy page content is appended followed by one
newline.  The whole loop runs inside a single try block, so a page whose
extract_text() raises aborts the loop; the accumulated text is discarded
and the except branch takes over, modelled by none. -/
def nativeLoop : List PageResult → Str → Option Str
  | [], acc => some acc
  | PageResult.ok c :: rest, acc =>
      nativeLoop rest (if pageTruthy c then acc ++ (c.getD []) ++ ['\n'] else acc)
  | PageResult.err :: _, _ => none

namespace App

/-- extract_pdf_text of src/app.py lines 108-123: on any exception (failing
to open the document, or any page raising mid-loop) the except branch
returns the empty string; otherwise the loop's accumulated text is
returned. -/
def extract_pdf_text (openOk : Bool) (pages : List PageResult) : Str :=
  if openOk then
    match nativeLoop pages [] with
    | some t => t
    | none => []
  else []

end App

namespace Extractor

/-- extract_pdf_text of src/pdf_text_extractor.py lines 4-19: identical loop,
but the except branch returns Python None (modelled by Option.none) rather
than an empty string. -/
def extract_pdf_text (openOk : Bool) (pages : List PageResult) : Option Str :=
  if openOk then
    match nativeLoop pages [] with
    | some t => some t
    | none => none
  else none

end Extractor

/-- The per-page fragment named by the spec's ExtractionResult invariant: the
extracted text of the page, with a failed page contributing an empty
fragment. -/
def specFragment : PageResult → Str
  | PageResult.ok c => c.getD []
  | PageResult.err => []

/-- The result text the C3 claim describes: per-page fragments in page order,
separated (not terminated) by single newlines, failed pages included as
empty fragments. -/
def specC3Text (pages : List PageResult) : Str :=
  List.intercalate ['\n'] (pages.map specFragment)

/-- The fragment a page actually contributes in the code: truthy content is
emitted followed by a newline, anything else contributes nothing. -/
def codeFragment : PageResult → Str
  | PageResult.ok c => if pageTruthy c then (c.getD []) ++ ['\n'] else []
  | PageResult.err => []

/-- Extraction provenance, from the spec's ExtractionResult data model. -/
inductive Provenance
  | NATIVE
  | OCR
deriving DecidableEq

/-- Extraction result of the spec's data model (the page count plays no role
in the claims settled here). -/
structure ExtractionResult where
  text : Str
  provenance : Provenance
deriving DecidableEq

/-- Modelled from the spec: the Extraction Selector of the OCR-enabled app
variant, which is not present under src/ (src/app.py's extract_pdf_text has
no OCR tier).  Spec 4.1: after native extraction, if the trimmed text length
is below the threshold (80 per the spec's testable property), extraction is
redone via the OCR Subsystem, whose result, if non-empty, supersedes the
native result; otherwise the possibly empty native result is returned
as-is.  The OCR Subsystem is abstracted as the text it returns. -/
def extractionSelector (nativeText ocrText : Str) : ExtractionResult :=
  if (pyStrip nativeText).length < 80 then
    if ocrText ≠ [] then ⟨ocrText, Provenance.OCR⟩
    else ⟨nativeText, Provenance.NATIVE⟩
  else ⟨nativeText, Provenance.NATIVE⟩

/-- Python str.expandtabs(8), the first step of textwrap's whitespace
munging: a tab advances the column to the next multiple of 8; newline and
carriage return reset the column. -/
def expandtabsAux : Str → Nat → Str
  | [], _ => []
  | c :: rest, col =>
    if c = '\t' then
      List.replicate (8 - col % 8) ' ' ++ expandtabsAux rest (col + (8 - col % 8))
    else if c = '\n' ∨ c = '\r' then c :: expandtabsAux rest 0
    else c :: expandtabsAux rest (col + 1)

/-- textwrap._munge_whitespace with the module defaults: expand tabs, then
translate each character of string.whitespace to a plain space. -/
def munge (s : Str) : Str :=
  (expandtabsAux s 0).map (fun c => if isSpace c then ' ' else c)

/-- Whitespace class of a chunk, read off its first character (the chunks
produced by the splitter are non-empty runs of uniform class; the value on
the empty list is irrelevant). -/
def wsB (c : Str) : Bool :=
  match c with
  | [] => true
  | a :: _ => isSpace a

/-- The chunk decomposition of textwrap._split.  Modelled from CPython's
wordsep_re restricted to text containing no hyphen-minus character, on
which the pattern reduces to the alternating maximal runs of whitespace
and of non-whitespace; the hyphen alternatives of the pattern can only
fire on text containing a hyphen. -/
def splitChunks : Str → List Str
  | [] => []
  | c :: rest =>
    match splitChunks rest with
    | [] => [[c]]
    | ch :: chs => if isSpace c = wsB ch then (c :: ch) :: chs else [c] :: ch :: chs

/-- Total character count of a chunk list. -/
def sumLen (l : List Str) : Nat := (l.map List.length).sum

/-- The inner while of textwrap._wrap_chunks: pop chunks onto the current
line while the accumulated length stays within the width. -/
def takeLineChunks (width : Nat) : Nat → List Str → List Str × List Str
  | _, [] => ([], [])
  | curLen, ch :: rest =>
    if curLen + ch.length ≤ width then
      let p := takeLineChunks width (curLen + ch.length) rest
      (ch :: p.1, p.2)
    else ([], ch :: rest)

/-- Drop of the (single) trailing chunk of the current line when it strips
to nothing, textwrap's drop_whitespace handling at the end of a line. -/
def dropTrailingWs (cur : List Str) : List Str :=
  match cur.getLast? with
  | some l => if pyStrip l = [] then cur.dropLast else cur
  | none => cur

/-- textwrap._handle_long_word applied after the greedy take (cur, rem):
when the next chunk alone exceeds the width it is broken at the remaining
space of the current line (hyphen-free model of break_long_words, where
rfind of a hyphen always misses); otherwise nothing happens. -/
def handleLong (width : Nat) (p : List Str × List Str) : List Str × List Str :=
  match p.2 with
  | [] => p
  | r0 :: rrest =>
    if width < r0.length then
      (p.1 ++ [r0.take (if width < 1 then 1 else width - sumLen p.1)],
       r0.drop (if width < 1 then 1 else width - sumLen p.1) :: rrest)
    else p

/-- Fuelled outer loop of textwrap._wrap_chunks with the module defaults.
`first` records that no line has been emitted yet (Python tests `lines`):
on a continuation line one leading chunk that strips to nothing is deleted;
chunks are then taken greedily; a next chunk longer than the width is
broken by handleLong; one trailing chunk that strips to nothing is dropped;
a non-empty line is emitted as the concatenation of its chunks.  Each
iteration removes at least one chunk or one character, so the fuel supplied
by pyWrap never runs out. -/
def wrapLoopF (width : Nat) : Nat → List Str → Bool → List Str
  | 0, _, _ => []
  | _ + 1, [], _ => []
  | fuel + 1, ch :: rest, first =>
    let chunks1 := if first = false ∧ pyStrip ch = [] then rest else ch :: rest
    let q := handleLong width (takeLineChunks width 0 chunks1)
    let cur := dropTrailingWs q.1
    if cur = [] then wrapLoopF width fuel q.2 first
    else cur.flatten :: wrapLoopF width fuel q.2 false

/-- textwrap.wrap(text, width) with the module defaults, as called by
paragraph (width 100) and bullet_list (width 95) of src/app.py. -/
def pyWrap (width : Nat) (t : Str) : List Str :=
  wrapLoopF width (sumLen (splitChunks (munge t)) + (splitChunks (munge t)).length + 1)
    (splitChunks (munge t)) true

/-- The maximal non-whitespace runs (the words) of a string. -/
def wordsOf (s : Str) : List Str := (splitChunks s).filter (fun c => !(wsB c))

/-- One drawString call recorded by the canvas model: the page it lands on,
its coordinates, the font in effect, and its text. -/
structure DrawnLine where
  page : Nat
  x : Int
  y : Int
  font : Str × Nat
  text : Str
deriving DecidableEq

/-- reportlab canvas state as used by generate_pdf: current page index,
current font, and the lines drawn so far. -/
structure Canvas where
  page : Nat
  font : Str × Nat
  lines : List DrawnLine
deriving DecidableEq

/-- reportlab's initial and post-showPage font state. -/
def defaultFont : Str × Nat := (toL "Helvetica", 12)

/-- The body font set by paragraph and bullet_list. -/
def bodyFont : Str × Nat := (toL "Helvetica", 11)

/-- The heading font. -/
def boldFont : Str × Nat := (toL "Helvetica-Bold", 15)

/-- A fresh canvas. -/
def canvas0 : Canvas := ⟨0, defaultFont, []⟩

/-- canvas.setFont. -/
def setFont (c : Canvas) (f : Str × Nat) : Canvas := { c with font := f }

/-- canvas.drawString: records a line at the given position in the current
font on the current page. -/
def drawString (c : Canvas) (x y : Int) (t : Str) : Canvas :=
  { c with lines := c.lines ++ [⟨c.page, x, y, c.font, t⟩] }

/-- canvas.showPage: ends the page and resets the graphics state (the font
reverts to the default). -/
def showPage (c : Canvas) : Canvas := { c with page := c.page + 1, font := defaultFont }

/-- Top-of-page cursor position: letter height 792 minus the 50pt top
margin. -/
def topY : Int := 742

/-- The pre-draw page-break check of paragraph and bullet_list: when the
cursor has fallen below 60, start a new page and reset the cursor. -/
def pageBreak : Canvas × Int → Canvas × Int :=
  fun st => if st.2 < 60 then (showPage st.1, topY) else st

/-- heading of generate_pdf (src/app.py lines 136-140): bold font, draw at
the left margin at the current cursor with no page-break check, then move
the cursor down 25. -/
def heading (t : Str) : Canvas × Int → Canvas × Int :=
  fun st => (drawString (setFont st.1 boldFont) 40 st.2 t, st.2 - 25)

/-- The per-line loop of paragraph: page-break check, draw at x 40, cursor
down one line height. -/
def paragraphLoop : List Str → Canvas × Int → Canvas × Int
  | [], st => st
  | l :: ls, st =>
    let st1 := pageBreak st
    paragraphLoop ls (drawString st1.1 40 st1.2 l, st1.2 - 14)

/-- paragraph of generate_pdf (src/app.py lines 142-151): body font, wrap at
width 100, draw each wrapped line, then a 10pt gap. -/
def paragraph (t : Str) (st : Canvas × Int) : Canvas × Int :=
  let st1 := paragraphLoop (pyWrap 100 t) (setFont st.1 bodyFont, st.2)
  (st1.1, st1.2 - 10)

/-- The list-marker characters lstripped from each bullet item. -/
def markers : Str := toL "*- "

/-- clean_item of bullet_list (src/app.py line 161). -/
def cleanItem (item : Str) : Str := pyStrip (pyLstrip markers item)

/-- list_items of bullet_list (src/app.py line 157): the stripped lines that
are non-empty after stripping. -/
def bulletItems (t : Str) : List Str :=
  ((pythonSplit ['\n'] t).map pyStrip).filter (fun i => i ≠ [])

/-- Continuation lines of one bullet item (src/app.py lines 174-179): deeper
indent 75, no glyph, same page-break rule before each line. -/
def bulletContLoop : List Str → Canvas × Int → Canvas × Int
  | [], st => st
  | sub :: subs, st =>
    let st1 := pageBreak st
    bulletContLoop subs (drawString st1.1 75 st1.2 sub, st1.2 - 14)

/-- One iteration of the item loop of bullet_list (src/app.py lines
159-179): wrap the cleaned item at width 95, page-break check, draw the
first wrapped line with the bullet glyph at indent 55, then the
continuation lines.  Accessing wrapped[0] raises IndexError when the
wrapped list is empty, modelled by Except.error. -/
def bulletItemStep (item : Str) (st : Canvas × Int) : Except String (Canvas × Int) :=
  match pyWrap 95 (cleanItem item) with
  | [] => Except.error "IndexError: list index out of range"
  | w0 :: rest =>
    let st1 := pageBreak st
    Except.ok (bulletContLoop rest (drawString st1.1 55 st1.2 (toL "• " ++ w0), st1.2 - 14))

/-- The item loop of bullet_list. -/
def bulletItemsLoop : List Str → Canvas × Int → Except String (Canvas × Int)
  | [], st => Except.ok st
  | it :: its, st => (bulletItemStep it st).bind (bulletItemsLoop its)

/-- bullet_list of generate_pdf (src/app.py lines 153-180): body font, the
item loop, then a 10pt gap. -/
def bullet_list (t : Str) (st : Canvas × Int) : Except String (Canvas × Int) :=
  (bulletItemsLoop (bulletItems t) (setFont st.1 bodyFont, st.2)).map
    (fun st2 => (st2.1, st2.2 - 10))

/-- generate_pdf (src/app.py lines 128-195): the fixed sequence of headings,
the simplified paragraph, and the two bullet blocks; the result is the
sequence of drawn lines of the finished document. -/
def generate_pdf (simplified bullets glossary : Str) : Except String (List DrawnLine) :=
  let st2 := heading (toL "1. Simplified Text")
    (heading (toL "Simplified PDF Output") (canvas0, topY))
  let st4 := heading (toL "2. Bullet Points Summary") (paragraph simplified st2)
  (bullet_list bullets st4).bind (fun st5 =>
    (bullet_list glossary (heading (toL "3. Glossary") st5)).map (fun st7 => st7.1.lines))

/-- The drawn lines of a render, empty when the render raised. -/
def linesOf : Except String (List DrawnLine) → List DrawnLine
  | Except.ok ls => ls
  | Except.error _ => []

/-- Whether some drawn line of a render sits below the 60pt threshold. -/
def hasLineBelow60 (e : Except String (List DrawnLine)) : Bool :=
  (linesOf e).any (fun l => decide (l.y < 60))

/-- Whether an Except value is a success. -/
def exceptOk {α : Type} : Except String α → Bool
  | Except.ok _ => true
  | Except.error _ => false

/-- The initial render state of generate_pdf. -/
def st0 : Canvas × Int := (canvas0, topY)

/-- Bullet text of 41 one-character items, enough to walk the cursor from
643 down to 69 and leave it at 59 after the block's 10pt gap. -/
def bullets41 : Str := List.intercalate ['\n'] (List.replicate 41 ['a'])

/-- A single word one character longer than the paragraph wrap width. -/
def longWord : Str := List.replicate 101 'a'

/-- The C10 claim's precondition, word for word: every line that is
non-empty (after stripping) contains at least one character other than
the markers asterisk, hyphen and space. -/
def claimPreC10 (t : Str) : Bool :=
  (pythonSplit ['\n'] t).all
    (fun line => (pyStrip line).isEmpty ||
      line.any (fun c => !(c == '*' || c == '-' || c == ' ')))

/-- A generation-service response in which the section-3 delimiter is
absent. -/
def blobNoSec3 : Str :=
  toL "=== SECTION 1: SIMPLIFIED TEXT ===\nA\n=== SECTION 2: BULLET POINT SUMMARY ===\nB"

/-- A well-formed three-section blob with bodies A, B, C. -/
def blob3 (A B C : Str) : Str :=
  sec1full ++ A ++ sec2full ++ B ++ sec3full ++ C

/-- A blob in which the full section-2 and section-3 delimiters each occur
twice, with segments P, X, Y, Z, W around them. -/
def blob9 (P X Y Z W : Str) : Str :=
  P ++ sec2full ++ X ++ sec2full ++ Y ++ sec3full ++ Z ++ sec3full ++ W

/-- All text after the first occurrence of sep, the C9 claim's wording for
the glossary field (empty when sep is absent). -/
def allAfterFirst (sep s : Str) : Str :=
  match firstOcc sep s with
  | some i => s.drop (i + sep.length)
  | none => []

/-- The glossary field of a successful parse, empty on failure. -/
def glossaryOf : Except String SectionBundle → Str
  | Except.ok b => b.glossary
  | Except.error _ => []

/-- A concrete blob whose full section-3 delimiter occurs twice. -/
def blobDup3 : Str :=
  sec1full ++ toL "A" ++ sec2full ++ toL "B" ++ sec3full ++ toL "C"
    ++ sec3full ++ toL "D"

/-- C1: a blob missing the section-3 delimiter does not yield a placeholder
glossary; the split-and-index code of src/app.py line 250 raises IndexError
(caught only by the handler's generic except, which aborts the whole
operation), so no SectionBundle is produced at all. -/
theorem c1_missing_delimiter_raises :
    parseSections blobNoSec3 = Except.error "IndexError: list index out of range" := by
  rfl

/-- Closed form of the page loop, for any accumulator: a raising page makes
the whole loop fail; otherwise each truthy page appends its content plus a
newline. -/
theorem nativeLoop_spec (pages : List PageResult) : ∀ acc : Str,
    nativeLoop pages acc =
      if pages.any pageErr then none else some (acc ++ (pages.map codeFragment).flatten) := by
  induction pages with
  | nil => intro acc; simp [nativeLoop]
  | cons p rest ih =>
    intro acc
    cases p with
    | ok c =>
      rw [nativeLoop, ih]
      by_cases hc : pageTruthy c = true
      · simp [pageErr, codeFragment, hc]
      · simp only [Bool.not_eq_true] at hc
        simp [pageErr, codeFragment, hc]
    | err => simp [nativeLoop, pageErr]

/-- Pages whose extraction raises mid-loop in src/app.py's variant. -/
def c3pages : List PageResult :=
  [PageResult.ok (some (toL "a")), PageResult.err, PageResult.ok (some (toL "b"))]

/-- C3 counterexample: with pages yielding "a", then raising, then yielding
"b", src/app.py's extract_pdf_text returns the empty string (the single try
block swallows the page failure together with everything already
accumulated), not the claimed newline-separated fragment concatenation
"a", "", "b". -/
theorem c3_failure_aborts_whole_extraction :
    App.extract_pdf_text true c3pages = [] ∧
      App.extract_pdf_text true c3pages ≠ specC3Text c3pages := by
  exact ⟨rfl, by decide⟩

/-- C3 amended: the native loop visits pages in order, but a page whose
extraction raises aborts the whole extraction and degrades it to the empty
string, discarding prior pages; absent any raising page the result is the
concatenation, in page order, of each truthy page's content followed by one
newline, pages with no content contributing nothing. -/
theorem c3_amended_page_loop (pages : List PageResult) :
    App.extract_pdf_text true pages =
      if pages.any pageErr then [] else (pages.map codeFragment).flatten := by
  rw [App.extract_pdf_text, if_pos rfl, nativeLoop_spec]
  by_cases h : pages.any pageErr = true
  · simp [h]
  · simp only [Bool.not_eq_true] at h
    simp [h]

/-- C7 counterexample: when opening the document fails, the standalone
variant src/pdf_text_extractor.py returns Python None, which is not the
empty string the claim promises for both variants. -/
theorem c7_standalone_returns_none :
    Extractor.extract_pdf_text false [PageResult.ok (some (toL "x"))] = none ∧
      Extractor.extract_pdf_text false [PageResult.ok (some (toL "x"))] ≠ some [] := by
  exact ⟨rfl, by decide⟩

/-- C7 amended: a failure to open the document never raises to the caller in
either variant; src/app.py degrades to the empty string, while
src/pdf_text_extractor.py degrades to None. -/
theorem c7_amended_open_failure (pages : List PageResult) :
    App.extract_pdf_text false pages = [] ∧
      Extractor.extract_pdf_text false pages = none := by
  exact ⟨rfl, rfl⟩

/-- C2 (spec-modelled): when native extraction yields fewer than 80 trimmed
characters, the Extraction Selector returns the OCR result with provenance
OCR whenever that result is non-empty, and otherwise the native result
as-is with provenance NATIVE. -/
theorem c2_selector_ocr_fallback (nativeText ocrText : Str)
    (h : (pyStrip nativeText).length < 80) :
    (ocrText ≠ [] → extractionSelector nativeText ocrText = ⟨ocrText, Provenance.OCR⟩) ∧
      (ocrText = [] → extractionSelector nativeText ocrText = ⟨nativeText, Provenance.NATIVE⟩) := by
  constructor
  · intro ho; simp [extractionSelector, h, ho]
  · intro ho; subst ho; simp [extractionSelector, h]

/-- C2 witness: a concrete short native text with non-empty OCR text is
superseded by the OCR result. -/
theorem c2_selector_witness :
    extractionSelector [] (toL "x") = ⟨toL "x", Provenance.OCR⟩ :=
  (c2_selector_ocr_fallback [] (toL "x") (by decide)).1 (by decide)

set_option maxRecDepth 8192 in
/-- C4 counterexample: with a one-line simplified text, 41 one-line bullet
items and a one-line glossary, generate_pdf draws a line (the heading
"3. Glossary", at cursor position 59) below the 60pt threshold, because
heading performs no page-break check. -/
theorem c4_heading_drawn_below_threshold :
    hasLineBelow60 (generate_pdf (toL "a") bullets41 (toL "a")) = true := by
  rfl

/-- C5 counterexample: wrapping a single 101-character word at width 100
splits it mid-word, so the words of the wrapped output are not the words of
the source text. -/
theorem c5_long_word_split_mid_word :
    ((pyWrap 100 longWord).map wordsOf).flatten ≠ wordsOf (munge longWord) := by
  decide

/-- C10 counterexample: the line consisting of a tab and two asterisks
satisfies the claim's stated precondition (the tab is a character other
than the markers asterisk, hyphen, space), yet after the strip and lstrip
of bullet_list the cleaned item is empty, the wrapped list is empty, and
the wrapped[0] access is out of bounds. -/
theorem c10_tab_line_defeats_stated_precondition :
    claimPreC10 (toL "\t**") = true ∧
      exceptOk (bullet_list (toL "\t**") st0) = false := by
  exact ⟨rfl, rfl⟩

/-- A drawn line is admissible for the C4 analysis when, unless it is a
heading line (bold font), it sits at or above the 60pt threshold. -/
def lineOk (l : DrawnLine) : Prop := l.font ≠ boldFont → 60 ≤ l.y

/-- All lines of a canvas are admissible. -/
def canvOk (c : Canvas) : Prop := ∀ l ∈ c.lines, lineOk l

/-- The page-break check leaves the cursor at or above 60. -/
theorem pageBreak_y (st : Canvas × Int) : 60 ≤ (pageBreak st).2 := by
  simp only [pageBreak]
  split
  · show (60 : Int) ≤ topY
    decide
  · omega

/-- The page-break check draws nothing. -/
theorem pageBreak_lines (st : Canvas × Int) : (pageBreak st).1.lines = st.1.lines := by
  simp only [pageBreak]
  split <;> rfl

/-- The page-break check preserves admissibility of the drawn lines. -/
theorem pageBreak_canvOk (st : Canvas × Int) (h : canvOk st.1) : canvOk (pageBreak st).1 := by
  intro l hl
  rw [pageBreak_lines] at hl
  exact h l hl

/-- drawString preserves admissibility when the new line is bold or sits at
or above the threshold. -/
theorem drawString_canvOk (c : Canvas) (x y : Int) (t : Str)
    (hc : canvOk c) (h : c.font = boldFont ∨ 60 ≤ y) : canvOk (drawString c x y t) := by
  intro l hl
  simp only [drawString] at hl
  rcases List.mem_append.mp hl with h1 | h1
  · exact hc l h1
  · rcases List.mem_singleton.mp h1 with rfl
    intro hf
    rcases h with hb | hy
    · exact absurd hb hf
    · exact hy

/-- heading preserves admissibility: its one drawn line is bold. -/
theorem heading_canvOk (t : Str) (st : Canvas × Int) (h : canvOk st.1) :
    canvOk (heading t st).1 :=
  drawString_canvOk (setFont st.1 boldFont) 40 st.2 t h (Or.inl rfl)

/-- The paragraph line loop preserves admissibility: every line it draws is
preceded by the page-break check. -/
theorem paragraphLoop_canvOk (ls : List Str) : ∀ st : Canvas × Int,
    canvOk st.1 → canvOk (paragraphLoop ls st).1 := by
  induction ls with
  | nil => intro st h; exact h
  | cons l ls ih =>
    intro st h
    exact ih _ (drawString_canvOk _ 40 (pageBreak st).2 l
      (pageBreak_canvOk st h) (Or.inr (pageBreak_y st)))

/-- paragraph preserves admissibility. -/
theorem paragraph_canvOk (t : Str) (st : Canvas × Int) (h : canvOk st.1) :
    canvOk (paragraph t st).1 :=
  paragraphLoop_canvOk (pyWrap 100 t) (setFont st.1 bodyFont, st.2) h

/-- The bullet continuation loop preserves admissibility. -/
theorem bulletContLoop_canvOk (subs : List Str) : ∀ st : Canvas × Int,
    canvOk st.1 → canvOk (bulletContLoop subs st).1 := by
  induction subs with
  | nil => intro st h; exact h
  | cons sub subs ih =>
    intro st h
    exact ih _ (drawString_canvOk _ 75 (pageBreak st).2 sub
      (pageBreak_canvOk st h) (Or.inr (pageBreak_y st)))

/-- One bullet item preserves admissibility when it succeeds. -/
theorem bulletItemStep_canvOk (item : Str) (st st' : Canvas × Int)
    (hs : bulletItemStep item st = Except.ok st') (h : canvOk st.1) : canvOk st'.1 := by
  unfold bulletItemStep at hs
  rcases hw : pyWrap 95 (cleanItem item) with _ | ⟨w0, rest⟩ <;> rw [hw] at hs
  · exact absurd hs (by simp)
  · rcases Except.ok.injEq .. ▸ hs with rfl
    exact bulletContLoop_canvOk rest _ (drawString_canvOk _ 55 (pageBreak st).2 _
      (pageBreak_canvOk st h) (Or.inr (pageBreak_y st)))

/-- The whole item loop preserves admissibility when it succeeds. -/
theorem bulletItemsLoop_canvOk (its : List Str) : ∀ st st' : Canvas × Int,
    bulletItemsLoop its st = Except.ok st' → canvOk st.1 → canvOk st'.1 := by
  induction its with
  | nil =>
    intro st st' hs h
    rcases Except.ok.injEq .. ▸ hs with rfl
    exact h
  | cons it its ih =>
    intro st st' hs h
    unfold bulletItemsLoop at hs
    rcases hstep : bulletItemStep it st with e | stm <;> rw [hstep] at hs
    · exact absurd hs (by simp [Except.bind])
    · exact ih stm st' hs (bulletItemStep_canvOk it st stm hstep h)

/-- bullet_list preserves admissibility when it succeeds. -/
theorem bullet_list_canvOk (t : Str) (st st' : Canvas × Int)
    (hs : bullet_list t st = Except.ok st') (h : canvOk st.1) : canvOk st'.1 := by
  unfold bullet_list at hs
  rcases hloop : bulletItemsLoop (bulletItems t) (setFont st.1 bodyFont, st.2)
      with e | stm <;> rw [hloop] at hs
  · exact absurd hs (by simp [Except.map])
  · rcases Except.ok.injEq .. ▸ hs with rfl
    exact bulletItemsLoop_canvOk (bulletItems t) _ stm hloop h

/-- C4 amended: in every successful render, every drawn line that is not a
heading line (the bold font) sits at or above the 60pt threshold, because
paragraph and bullet lines are preceded by the page-break check; heading
lines carry no such check and can be drawn below the threshold, as the
counterexample shows. -/
theorem c4_amended_body_lines_above_threshold (s b g : Str) (l : DrawnLine)
    (hl : l ∈ linesOf (generate_pdf s b g)) (hf : l.font ≠ boldFont) : 60 ≤ l.y := by
  simp only [generate_pdf] at hl
  rcases h5 : bullet_list b (heading (toL "2. Bullet Points Summary")
      (paragraph s (heading (toL "1. Simplified Text")
        (heading (toL "Simplified PDF Output") (canvas0, topY))))) with e | st5
    <;> rw [h5] at hl <;> simp only [Except.bind] at hl
  · exact absurd hl (by simp [linesOf])
  · rcases h7 : bullet_list g (heading (toL "3. Glossary") st5) with e | st7
      <;> rw [h7] at hl <;> simp only [Except.map] at hl
    · exact absurd hl (by simp [linesOf])
    · have hok : canvOk st7.1 := by
        refine bullet_list_canvOk g _ st7 h7 (heading_canvOk _ st5 ?_)
        refine bullet_list_canvOk b _ st5 h5 ?_
        refine heading_canvOk _ _ (paragraph_canvOk s _ (heading_canvOk _ _
          (heading_canvOk _ _ ?_)))
        intro l hl'
        exact absurd hl' (List.not_mem_nil l)
      have : l ∈ st7.1.lines := by
        simpa [linesOf] using hl
      exact hok l this hf

/-- C4 amended witness: the simplified-text paragraph line of a small
concrete render is a body line, and the theorem places it at or above the
threshold. -/
theorem c4_amended_witness :
    60 ≤ (⟨0, 40, 692, (toL "Helvetica", 11), toL "a"⟩ : DrawnLine).y :=
  c4_amended_body_lines_above_threshold (toL "a") (toL "a") (toL "a")
    ⟨0, 40, 692, (toL "Helvetica", 11), toL "a"⟩ (by decide) (by decide)

/-- The drawn lines emitted by the bullet continuation loop: one line per
wrapped continuation, at the deeper indent 75, with the continuation text
itself (no glyph), each at or above the 60pt threshold. -/
theorem bulletContLoop_lines (subs : List Str) : ∀ st : Canvas × Int,
    ∃ em : List DrawnLine,
      (bulletContLoop subs st).1.lines = st.1.lines ++ em ∧
        em.map (fun l => l.x) = subs.map (fun _ => (75 : Int)) ∧
        em.map (fun l => l.text) = subs ∧
        ∀ l ∈ em, 60 ≤ l.y := by
  induction subs with
  | nil =>
    intro st
    exact ⟨[], by simp [bulletContLoop], rfl, rfl, by simp⟩
  | cons sub subs ih =>
    intro st
    obtain ⟨em, h1, h2, h3, h4⟩ :=
      ih (drawString (pageBreak st).1 75 (pageBreak st).2 sub, (pageBreak st).2 - 14)
    refine ⟨⟨(pageBreak st).1.page, 75, (pageBreak st).2, (pageBreak st).1.font, sub⟩ :: em,
      ?_, ?_, ?_, ?_⟩
    · show (bulletContLoop subs _).1.lines = _
      rw [h1]
      simp [drawString, pageBreak_lines]
    · simpa using h2
    · simpa using h3
    · intro l hl
      rcases List.mem_cons.mp hl with rfl | hl
      · exact pageBreak_y st
      · exact h4 l hl

/-- C8: one bullet item whose cleaned text wraps into a head line and
continuation lines succeeds and draws exactly the head line with the bullet
glyph at indent 55 followed by the continuations at indent 75 without a
glyph, every line preceded by the page-break check and hence at or above
the 60pt threshold. -/
theorem c8_bullet_item_layout (item : Str) (st : Canvas × Int) (w0 : Str) (rest : List Str)
    (hw : pyWrap 95 (cleanItem item) = w0 :: rest) :
    ∃ (st' : Canvas × Int) (em : List DrawnLine),
      bulletItemStep item st = Except.ok st' ∧
        st'.1.lines = st.1.lines ++ em ∧
        em.map (fun l => l.x) = (55 : Int) :: rest.map (fun _ => (75 : Int)) ∧
        em.map (fun l => l.text) = (toL "• " ++ w0) :: rest ∧
        ∀ l ∈ em, 60 ≤ l.y := by
  obtain ⟨em, h1, h2, h3, h4⟩ := bulletContLoop_lines rest
    (drawString (pageBreak st).1 55 (pageBreak st).2 (toL "• " ++ w0), (pageBreak st).2 - 14)
  refine ⟨bulletContLoop rest
      (drawString (pageBreak st).1 55 (pageBreak st).2 (toL "• " ++ w0), (pageBreak st).2 - 14),
    ⟨(pageBreak st).1.page, 55, (pageBreak st).2, (pageBreak st).1.font,
      toL "• " ++ w0⟩ :: em, ?_, ?_, ?_, ?_, ?_⟩
  · unfold bulletItemStep
    rw [hw]
  · rw [h1]
    simp [drawString, pageBreak_lines]
  · simpa using h2
  · simpa using h3
  · intro l hl
    rcases List.mem_cons.mp hl with rfl | hl
    · exact pageBreak_y st
    · exact h4 l hl

/-- A bullet item whose cleaned text wraps into exactly three lines. -/
def item3 : Str :=
  toL "- " ++ List.replicate 50 'x' ++ [' '] ++ List.replicate 50 'y' ++ [' ']
    ++ List.replicate 50 'z'

set_option maxRecDepth 8192 in
/-- C8 witness: the concrete three-line item, from the initial render state. -/
theorem c8_bullet_item_witness :
    ∃ (st' : Canvas × Int) (em : List DrawnLine),
      bulletItemStep item3 st0 = Except.ok st' ∧
        st'.1.lines = st0.1.lines ++ em ∧
        em.map (fun l => l.x) =
          (55 : Int) :: [List.replicate 50 'y', List.replicate 50 'z'].map (fun _ => (75 : Int)) ∧
        em.map (fun l => l.text) =
          (toL "• " ++ List.replicate 50 'x') :: [List.replicate 50 'y', List.replicate 50 'z'] ∧
        ∀ l ∈ em, 60 ≤ l.y :=
  c8_bullet_item_layout item3 st0 (List.replicate 50 'x')
    [List.replicate 50 'y', List.replicate 50 'z'] (by rfl)

/-- The head of a dropWhile result fails the predicate. -/
theorem dropWhile_head_false {p : Char → Bool} : ∀ (l : Str) (x : Char) (xs : Str),
    l.dropWhile p = x :: xs → p x = false := by
  intro l
  induction l with
  | nil => intro x xs h; exact absurd h (by simp)
  | cons c r ih =>
    intro x xs h
    rw [List.dropWhile_cons] at h
    by_cases hc : p c = true
    · rw [if_pos hc] at h
      exact ih x xs h
    · rw [if_neg hc] at h
      rcases List.cons.injEq .. ▸ h with ⟨rfl, rfl⟩
      exact Bool.not_eq_true _ ▸ hc

/-- The six-character textwrap whitespace table is contained in the Unicode
whitespace class of str.strip. -/
theorem isSpace_isStripSpace (c : Char) (h : isSpace c = true) : isStripSpace c = true := by
  unfold isStripSpace
  rw [h]
  rfl

/-- A character outside the Unicode whitespace class of str.strip is outside
the six-character textwrap table. -/
theorem isSpace_false_of_strip_false (c : Char) (h : isStripSpace c = false) :
    isSpace c = false := by
  rcases hq : isSpace c with _ | _
  · rfl
  · rw [isSpace_isStripSpace c hq] at h
    exact absurd h (by decide)

/-- A string strips to nothing exactly when it is all Unicode whitespace. -/
theorem pyStrip_eq_nil_iff (s : Str) : pyStrip s = [] ↔ ∀ c ∈ s, isStripSpace c = true := by
  unfold pyStrip
  rw [List.rdropWhile_eq_nil_iff]
  constructor
  · intro h c hc
    rcases List.mem_append.mp
        ((List.takeWhile_append_dropWhile (p := isStripSpace) (l := s)) ▸ hc)
      with h1 | h1
    · exact List.mem_takeWhile_imp h1
    · exact h c h1
  · intro h c hc
    exact h c ((List.dropWhile_sublist (p := isStripSpace) (l := s)).subset hc)

/-- The head of a non-empty stripped string is not Unicode whitespace. -/
theorem pyStrip_head_not_space (s : Str) (x : Char) (xs : Str)
    (h : pyStrip s = x :: xs) : isStripSpace x = false := by
  have hpfx := List.rdropWhile_prefix (p := isStripSpace) (l := s.dropWhile isStripSpace)
  rw [show List.rdropWhile isStripSpace (s.dropWhile isStripSpace) = pyStrip s from rfl,
    h] at hpfx
  obtain ⟨t, ht⟩ := hpfx
  exact dropWhile_head_false s x (xs ++ t) (by rw [← ht]; rfl)

/-- Dropping the trailing whitespace chunk of a line that starts with a
chunk that does not strip to nothing leaves the line non-empty. -/
theorem dropTrailingWs_cons_ne_nil (a : Str) (l : List Str) (ha : pyStrip a ≠ []) :
    dropTrailingWs (a :: l) ≠ [] := by
  unfold dropTrailingWs
  cases l with
  | nil => simp [ha]
  | cons b l' =>
    rcases h : (a :: b :: l').getLast? with _ | last <;> simp only [h]
    · simp
    · split <;> simp

/-- The chunk decomposition of a string keeps its first character at the
head of the first chunk. -/
theorem splitChunks_cons_shape (x : Char) (m : Str) :
    ∃ (t : Str) (chs : List Str), splitChunks (x :: m) = (x :: t) :: chs := by
  have hs : splitChunks (x :: m) =
      (match splitChunks m with
       | [] => [[x]]
       | ch :: chs => if isSpace x = wsB ch then (x :: ch) :: chs else [x] :: ch :: chs) := rfl
  rcases h : splitChunks m with _ | ⟨ch, chs⟩ <;> rw [h] at hs
  · exact ⟨[], [], hs⟩
  · by_cases hc : isSpace x = wsB ch
    · exact ⟨ch, chs, by rw [hs]; exact if_pos hc⟩
    · exact ⟨[], ch :: chs, by rw [hs]; exact if_neg hc⟩

/-- Whitespace munging keeps a non-whitespace head character in place. -/
theorem munge_cons_shape (x : Char) (xs : Str) (hx : isSpace x = false) :
    ∃ ys : Str, munge (x :: xs) = x :: ys := by
  have hnt : ¬ x = '\t' := by
    intro h; rw [h] at hx; exact absurd hx (by decide)
  have hnn : ¬ (x = '\n' ∨ x = '\r') := by
    rintro (h | h) <;> rw [h] at hx <;> exact absurd hx (by decide)
  have he : expandtabsAux (x :: xs) 0 =
      (if x = '\t' then
        List.replicate (8 - 0 % 8) ' ' ++ expandtabsAux xs (0 + (8 - 0 % 8))
       else if x = '\n' ∨ x = '\r' then x :: expandtabsAux xs 0
       else x :: expandtabsAux xs (0 + 1)) := rfl
  refine ⟨(expandtabsAux xs (0 + 1)).map (fun c => if isSpace c then ' ' else c), ?_⟩
  show (expandtabsAux (x :: xs) 0).map (fun c => if isSpace c then ' ' else c) = _
  rw [he, if_neg hnt, if_neg hnn, List.map_cons,
    if_neg (by rw [hx]; exact Bool.false_ne_true)]

/-- A chunk beginning with a character outside the Unicode whitespace class
does not strip to nothing. -/
theorem pyStrip_word_ne_nil (x : Char) (t : Str) (hx : isStripSpace x = false) :
    pyStrip (x :: t) ≠ [] := by
  intro h
  have := (pyStrip_eq_nil_iff (x :: t)).mp h x (List.mem_cons_self x t)
  rw [hx] at this
  exact Bool.false_ne_true this

/-- Definitional equation of takeLineChunks on an empty chunk list. -/
theorem takeLineChunks_nil (width curLen : Nat) :
    takeLineChunks width curLen [] = ([], []) := rfl

/-- Definitional equation of takeLineChunks on a non-empty chunk list. -/
theorem takeLineChunks_cons (width curLen : Nat) (ch : Str) (rest : List Str) :
    takeLineChunks width curLen (ch :: rest) =
      if curLen + ch.length ≤ width then
        (ch :: (takeLineChunks width (curLen + ch.length) rest).1,
         (takeLineChunks width (curLen + ch.length) rest).2)
      else ([], ch :: rest) := rfl

/-- Definitional equation of handleLong with no remaining chunk. -/
theorem handleLong_nil (width : Nat) (p1 : List Str) :
    handleLong width (p1, []) = (p1, []) := rfl

/-- Definitional equation of handleLong with a remaining chunk. -/
theorem handleLong_cons (width : Nat) (p1 : List Str) (r0 : Str) (rrest : List Str) :
    handleLong width (p1, r0 :: rrest) =
      if width < r0.length then
        (p1 ++ [r0.take (if width < 1 then 1 else width - sumLen p1)],
         r0.drop (if width < 1 then 1 else width - sumLen p1) :: rrest)
      else (p1, r0 :: rrest) := rfl

/-- Definitional equation of one step of the wrap loop. -/
theorem wrapLoopF_cons (width fuel : Nat) (ch : Str) (rest : List Str) (first : Bool) :
    wrapLoopF width (fuel + 1) (ch :: rest) first =
      (if dropTrailingWs (handleLong width (takeLineChunks width 0
            (if first = false ∧ pyStrip ch = [] then rest else ch :: rest))).1 = []
       then wrapLoopF width fuel (handleLong width (takeLineChunks width 0
            (if first = false ∧ pyStrip ch = [] then rest else ch :: rest))).2 first
       else (dropTrailingWs (handleLong width (takeLineChunks width 0
              (if first = false ∧ pyStrip ch = [] then rest else ch :: rest))).1).flatten ::
            wrapLoopF width fuel (handleLong width (takeLineChunks width 0
              (if first = false ∧ pyStrip ch = [] then rest else ch :: rest))).2 false) := rfl

/-- handleLong keeps the head chunk of a non-empty current line. -/
theorem handleLong_fst_cons (width : Nat) (a : Str) (l rem : List Str) :
    ∃ l' : List Str, (handleLong width (a :: l, rem)).1 = a :: l' := by
  rcases rem with _ | ⟨r0, rrest⟩
  · exact ⟨l, by rw [handleLong_nil]⟩
  · rw [handleLong_cons]
    by_cases hw : width < r0.length
    · rw [if_pos hw]
      exact ⟨l ++ [r0.take (if width < 1 then 1 else width - sumLen (a :: l))], by simp⟩
    · rw [if_neg hw]
      exact ⟨l, rfl⟩

/-- One pass of the wrap loop over chunks whose first chunk is a word emits
at least one line. -/
theorem wrapLoopF_word_ne_nil (w fuel : Nat) (x : Char) (t : Str) (chs : List Str)
    (hx : isStripSpace x = false) :
    wrapLoopF w (fuel + 1) ((x :: t) :: chs) true ≠ [] := by
  have hfc : ¬ (true = false ∧ pyStrip (x :: t) = []) := by simp
  rw [wrapLoopF_cons]
  simp only [if_neg hfc]
  by_cases hfit : 0 + (x :: t).length ≤ w
  · have htake : takeLineChunks w 0 ((x :: t) :: chs) =
        ((x :: t) :: (takeLineChunks w (0 + (x :: t).length) chs).1,
         (takeLineChunks w (0 + (x :: t).length) chs).2) := by
      rw [takeLineChunks_cons, if_pos hfit]
    obtain ⟨l', hl'⟩ := handleLong_fst_cons w (x :: t)
      (takeLineChunks w (0 + (x :: t).length) chs).1
      (takeLineChunks w (0 + (x :: t).length) chs).2
    rw [htake, hl']
    rw [if_neg (dropTrailingWs_cons_ne_nil (x :: t) l' (pyStrip_word_ne_nil x t hx))]
    simp
  · have hlong : w < (x :: t).length := by omega
    have htake : takeLineChunks w 0 ((x :: t) :: chs) = ([], (x :: t) :: chs) := by
      rw [takeLineChunks_cons, if_neg hfit]
    rw [htake, handleLong_cons, if_pos hlong]
    obtain ⟨n, hn⟩ : ∃ n : Nat, (if w < 1 then 1 else w - sumLen ([] : List Str)) = n + 1 := by
      by_cases h1 : w < 1
      · exact ⟨0, by rw [if_pos h1]⟩
      · refine ⟨w - 1, ?_⟩
        rw [if_neg h1]
        simp only [sumLen, List.map_nil, List.sum_nil, Nat.sub_zero]
        omega
    rw [hn]
    simp only [List.nil_append, List.take_succ_cons]
    rw [if_neg (dropTrailingWs_cons_ne_nil (x :: List.take n t) []
      (pyStrip_word_ne_nil x (List.take n t) hx))]
    simp

/-- The wrap of a text whose head character is outside the Unicode
whitespace class emits at least one line. -/
theorem pyWrap_ne_nil (w : Nat) (x : Char) (xs : Str) (hx : isStripSpace x = false) :
    pyWrap w (x :: xs) ≠ [] := by
  obtain ⟨ys, hy⟩ := munge_cons_shape x xs (isSpace_false_of_strip_false x hx)
  obtain ⟨t, chs, hc⟩ := splitChunks_cons_shape x ys
  unfold pyWrap
  rw [hy, hc]
  have : sumLen ((x :: t) :: chs) + ((x :: t) :: chs).length + 1 =
      (sumLen ((x :: t) :: chs) + ((x :: t) :: chs).length) + 1 := rfl
  rw [this]
  exact wrapLoopF_word_ne_nil w _ x t chs hx

/-- A member of a list failing the predicate survives dropWhile. -/
theorem mem_dropWhile_of_pred_false {p : Char → Bool} (l : Str) (c : Char)
    (hc : c ∈ l) (h : p c = false) : c ∈ l.dropWhile p := by
  rcases List.mem_append.mp ((List.takeWhile_append_dropWhile (p := p) (l := l)) ▸ hc)
    with h1 | h1
  · exact absurd (List.mem_takeWhile_imp h1) (by rw [h]; exact Bool.false_ne_true)
  · exact h1

/-- A member of a string outside the Unicode whitespace class survives
str.strip. -/
theorem mem_pyStrip_of_not_space (s : Str) (c : Char) (hc : c ∈ s)
    (h : isStripSpace c = false) : c ∈ pyStrip s := by
  have h1 : c ∈ s.dropWhile isStripSpace := mem_dropWhile_of_pred_false s c hc h
  show c ∈ List.rdropWhile isStripSpace (s.dropWhile isStripSpace)
  unfold List.rdropWhile
  exact List.mem_reverse.mpr (mem_dropWhile_of_pred_false _ c
    (List.mem_reverse.mpr h1) h)

/-- A non-whitespace member of an item that is neither of the two marker
glyphs survives the lstrip and strip of clean_item. -/
theorem mem_cleanItem (item : Str) (c : Char) (hc : c ∈ item)
    (hsp : isStripSpace c = false) (h1 : c ≠ '*') (h2 : c ≠ '-') : c ∈ cleanItem item := by
  unfold cleanItem pyLstrip
  refine mem_pyStrip_of_not_space _ c ?_ hsp
  refine mem_dropWhile_of_pred_false item c hc ?_
  rcases hb : markers.contains c with _ | _
  · rfl
  · exfalso
    have hmem : c ∈ markers := List.mem_of_elem_eq_true hb
    have hm : markers = ['*', '-', ' '] := by decide
    rw [hm] at hmem
    simp only [List.mem_cons, List.not_mem_nil, or_false] at hmem
    rcases hmem with rfl | rfl | rfl
    · exact h1 rfl
    · exact h2 rfl
    · exact absurd hsp (by decide)

/-- A bullet item containing a non-whitespace character other than the two
marker glyphs wraps to at least one line, so its iteration succeeds. -/
theorem bulletItemStep_ok_of_witness (item : Str) (st : Canvas × Int) (c : Char)
    (hc : c ∈ item) (hsp : isStripSpace c = false) (h1 : c ≠ '*') (h2 : c ≠ '-') :
    ∃ st', bulletItemStep item st = Except.ok st' := by
  have hmem := mem_cleanItem item c hc hsp h1 h2
  rcases hcl : cleanItem item with _ | ⟨y, ys⟩
  · rw [hcl] at hmem
    exact absurd hmem (List.not_mem_nil c)
  · have hy : isStripSpace y = false :=
      pyStrip_head_not_space (pyLstrip markers item) y ys (by rw [← hcl]; rfl)
    have hwrap := pyWrap_ne_nil 95 y ys hy
    unfold bulletItemStep
    rw [hcl]
    rcases hw : pyWrap 95 (y :: ys) with _ | ⟨w0, rest⟩
    · exact absurd hw hwrap
    · exact ⟨_, rfl⟩

/-- The bullet item loop succeeds when every item has a witnessing
character. -/
theorem bulletItemsLoop_ok (its : List Str) : ∀ st : Canvas × Int,
    (∀ item ∈ its, ∃ c ∈ item, isStripSpace c = false ∧ c ≠ '*' ∧ c ≠ '-') →
    ∃ st', bulletItemsLoop its st = Except.ok st' := by
  induction its with
  | nil => intro st _; exact ⟨st, rfl⟩
  | cons it its ih =>
    intro st h
    obtain ⟨c, hc, hsp, h1, h2⟩ := h it (List.mem_cons_self it its)
    obtain ⟨st1, hst1⟩ := bulletItemStep_ok_of_witness it st c hc hsp h1 h2
    obtain ⟨st', hst'⟩ := ih st1 (fun i hi => h i (List.mem_cons_of_mem it hi))
    refine ⟨st', ?_⟩
    rw [bulletItemsLoop, hst1]
    exact hst'

/-- C10 amended: bullet_list is total exactly under the amended
precondition that every line that is non-empty after stripping contains at
least one character outside the Unicode whitespace class of str.strip and
other than the markers asterisk and hyphen (the original claim's "other
than asterisk, hyphen, space" admits a tab or any other whitespace
character, which the strip removes); under it the wrapped[0] access is
always in bounds, while the all-marker line of the second conjunct leaves
an empty wrapped list and the access is out of bounds. -/
theorem c10_bullet_list_totality :
    (∀ (text : Str) (st : Canvas × Int),
      (∀ line ∈ pythonSplit ['\n'] text, pyStrip line ≠ [] →
        ∃ c ∈ line, isStripSpace c = false ∧ c ≠ '*' ∧ c ≠ '-') →
      exceptOk (bullet_list text st) = true) ∧
    exceptOk (bullet_list (toL "***") st0) = false := by
  constructor
  · intro text st h
    have hitems : ∀ item ∈ bulletItems text,
        ∃ c ∈ item, isStripSpace c = false ∧ c ≠ '*' ∧ c ≠ '-' := by
      intro item hitem
      unfold bulletItems at hitem
      obtain ⟨hmem, hne⟩ := List.mem_filter.mp hitem
      obtain ⟨line, hline, rfl⟩ := List.mem_map.mp hmem
      obtain ⟨c, hc, hsp, h1, h2⟩ := h line hline (of_decide_eq_true hne)
      exact ⟨c, mem_pyStrip_of_not_space line c hc hsp, hsp, h1, h2⟩
    obtain ⟨st', hst'⟩ :=
      bulletItemsLoop_ok (bulletItems text) (setFont st.1 bodyFont, st.2) hitems
    unfold bullet_list
    rw [hst']
    rfl
  · rfl

/-- C10 witness: a concrete well-formed bullet text renders successfully. -/
theorem c10_bullet_list_witness :
    exceptOk (bullet_list (toL "hello") st0) = true :=
  c10_bullet_list_totality.1 (toL "hello") st0 (by decide)

/-- firstOcc finds a separator sitting at the very front. -/
theorem firstOcc_self_append (old s : Str) (hold : old ≠ []) :
    firstOcc old (old ++ s) = some 0 := by
  rcases old with _ | ⟨a, as⟩
  · exact absurd rfl hold
  · rw [List.cons_append, firstOcc,
      if_pos (List.isPrefixOf_iff_prefix.mpr
        (by rw [← List.cons_append]; exact List.prefix_append _ _))]

/-- After removing a found occurrence, strictly fewer characters remain. -/
theorem firstOcc_some_bound (sep s : Str) (i : Nat) (hsep : sep ≠ [])
    (h : firstOcc sep s = some i) : s.length - (i + sep.length) < s.length := by
  have hs : s ≠ [] := by
    intro he
    subst he
    rcases sep with _ | ⟨a, as⟩
    · exact hsep rfl
    · simp [firstOcc, List.isPrefixOf] at h
  have h1 : 0 < s.length := List.length_pos.mpr hs
  have h2 : 0 < sep.length := List.length_pos.mpr hsep
  omega

/-- The split worker ignores its fuel as long as the fuel exceeds the
string length. -/
theorem pySplitAux_fuel_irrel (sep : Str) (hsep : sep ≠ []) : ∀ (f g : Nat) (s : Str),
    s.length < f → s.length < g → pySplitAux sep f s = pySplitAux sep g s := by
  intro f
  induction f with
  | zero => intro g s hf _; exact absurd hf (Nat.not_lt_zero _)
  | succ f ih =>
    intro g s hf hg
    rcases g with _ | g
    · exact absurd hg (Nat.not_lt_zero _)
    · rw [pySplitAux, pySplitAux]
      rcases ho : firstOcc sep s with _ | i
      · rfl
      · have hb := firstOcc_some_bound sep s i hsep ho
        have hd : (s.drop (i + sep.length)).length = s.length - (i + sep.length) :=
          List.length_drop _ _
        show s.take i :: pySplitAux sep f (s.drop (i + sep.length)) =
          s.take i :: pySplitAux sep g (s.drop (i + sep.length))
        congr 1
        exact ih g (s.drop (i + sep.length)) (by omega) (by omega)

/-- str.split on a string with no occurrence of the separator. -/
theorem pythonSplit_of_none (sep s : Str) (h : firstOcc sep s = none) :
    pythonSplit sep s = [s] := by
  by_cases hsep : sep = []
  · rw [pythonSplit, if_pos hsep]
  · rw [pythonSplit, if_neg hsep, pySplitAux, h]

/-- str.split peels the piece before the first occurrence and recurses on
the remainder after it. -/
theorem pythonSplit_of_some (sep s : Str) (i : Nat) (hsep : sep ≠ [])
    (h : firstOcc sep s = some i) :
    pythonSplit sep s = s.take i :: pythonSplit sep (s.drop (i + sep.length)) := by
  rw [pythonSplit, if_neg hsep, pySplitAux, h, pythonSplit, if_neg hsep]
  have hb := firstOcc_some_bound sep s i hsep h
  have hd : (s.drop (i + sep.length)).length = s.length - (i + sep.length) :=
    List.length_drop _ _
  show s.take i :: pySplitAux sep s.length (s.drop (i + sep.length)) =
    s.take i :: pySplitAux sep ((s.drop (i + sep.length)).length + 1) (s.drop (i + sep.length))
  congr 1
  exact pySplitAux_fuel_irrel sep hsep s.length ((s.drop (i + sep.length)).length + 1)
    (s.drop (i + sep.length)) (by omega) (by omega)

/-- The replace worker is the identity when the old string does not occur,
at any fuel. -/
theorem pyReplAux_of_none (old new s : Str) (h : firstOcc old s = none) :
    ∀ fuel : Nat, pyReplAux old new fuel s = s := by
  intro fuel
  rcases fuel with _ | fuel
  · rfl
  · rw [pyReplAux, h]

/-- Removing a label that sits at the front of a piece and nowhere else
leaves exactly the rest of the piece. -/
theorem pythonReplace_strip_head (old s : Str) (hold : old ≠ [])
    (h : firstOcc old s = none) : pythonReplace old [] (old ++ s) = s := by
  rw [pythonReplace, if_neg hold, pyReplAux, firstOcc_self_append old s hold]
  simp only [List.take_zero, List.nil_append, Nat.zero_add]
  rw [List.drop_left]
  exact pyReplAux_of_none old [] s h _

/-- C6: on a blob carrying the three delimiters in the fixed order around
bodies A, B, C (stated as first-occurrence positions: each delimiter is
first found exactly at its structural position, the section-1 label does
not recur inside A, and no delimiter recurs later), the handler returns
the bundle of the three bodies up to surrounding whitespace, the section-1
label stripped from the simplified field. -/
theorem c6_parser_well_formed (A B C : Str)
    (hA : firstOcc sec2pfx (blob3 A B C) = some (sec1full.length + A.length))
    (hrepl : firstOcc sec1full A = none)
    (hB2 : firstOcc sec2full (blob3 A B C) = some (sec1full.length + A.length))
    (hB3 : firstOcc sec2full (B ++ sec3full ++ C) = none)
    (hB4 : firstOcc sec3pfx (B ++ sec3full ++ C) = some B.length)
    (hC1 : firstOcc sec3full (blob3 A B C) =
      some (sec1full.length + A.length + sec2full.length + B.length))
    (hC2 : firstOcc sec3full C = none) :
    parseSections (blob3 A B C) = Except.ok ⟨pyStrip A, pyStrip B, pyStrip C⟩ := by
  have htake1 : (blob3 A B C).take (sec1full.length + A.length) = sec1full ++ A := by
    have hb : blob3 A B C = (sec1full ++ A) ++ (sec2full ++ B ++ sec3full ++ C) := by
      simp [blob3, List.append_assoc]
    rw [hb, ← List.length_append]
    exact List.take_left _ _
  have hdrop2 : (blob3 A B C).drop (sec1full.length + A.length + sec2full.length) =
      B ++ sec3full ++ C := by
    have hb : blob3 A B C = ((sec1full ++ A) ++ sec2full) ++ (B ++ sec3full ++ C) := by
      simp [blob3, List.append_assoc]
    rw [hb, show sec1full.length + A.length + sec2full.length =
      ((sec1full ++ A) ++ sec2full).length by simp only [List.length_append]; try omega]
    exact List.drop_left _ _
  have hdrop3 : (blob3 A B C).drop
      (sec1full.length + A.length + sec2full.length + B.length + sec3full.length) = C := by
    have hb : blob3 A B C =
        ((((sec1full ++ A) ++ sec2full) ++ B) ++ sec3full) ++ C := by
      simp [blob3, List.append_assoc]
    rw [hb, show sec1full.length + A.length + sec2full.length + B.length + sec3full.length =
      ((((sec1full ++ A) ++ sec2full) ++ B) ++ sec3full).length by
        simp only [List.length_append]; try omega]
    exact List.drop_left _ _
  have htakeB : (B ++ sec3full ++ C).take B.length = B := by
    rw [show B ++ sec3full ++ C = B ++ (sec3full ++ C) from List.append_assoc _ _ _]
    exact List.take_left _ _
  have hs2p : pythonSplit sec2pfx (blob3 A B C) =
      (blob3 A B C).take (sec1full.length + A.length) ::
        pythonSplit sec2pfx
          ((blob3 A B C).drop (sec1full.length + A.length + sec2pfx.length)) :=
    pythonSplit_of_some _ _ _ (by decide) hA
  have hs2f : pythonSplit sec2full (blob3 A B C) =
      (blob3 A B C).take (sec1full.length + A.length) :: [B ++ sec3full ++ C] := by
    rw [pythonSplit_of_some _ _ _ (by decide) hB2, hdrop2, pythonSplit_of_none _ _ hB3]
  have hs3f : pythonSplit sec3full (blob3 A B C) =
      (blob3 A B C).take (sec1full.length + A.length + sec2full.length + B.length)
        :: [C] := by
    rw [pythonSplit_of_some _ _ _ (by decide) hC1, hdrop3, pythonSplit_of_none _ _ hC2]
  have hbul : pythonSplit sec3pfx (B ++ sec3full ++ C) =
      (B ++ sec3full ++ C).take B.length ::
        pythonSplit sec3pfx
          ((B ++ sec3full ++ C).drop (B.length + sec3pfx.length)) :=
    pythonSplit_of_some _ _ _ (by decide) hB4
  simp only [parseSections, hs2p, List.headD_cons, htake1,
    pythonReplace_strip_head sec1full A (by decide) hrepl, hs2f, hs3f,
    List.get?_cons_succ, List.get?_cons_zero, hbul, htakeB]

set_option maxRecDepth 16384 in
/-- C6 witness: a concrete well-formed blob with newline-framed bodies. -/
theorem c6_parser_witness :
    parseSections (blob3 (toL "\nAlpha\n") (toL "\nBeta\n") (toL "\nGamma\n")) =
      Except.ok ⟨pyStrip (toL "\nAlpha\n"), pyStrip (toL "\nBeta\n"),
        pyStrip (toL "\nGamma\n")⟩ :=
  c6_parser_well_formed (toL "\nAlpha\n") (toL "\nBeta\n") (toL "\nGamma\n")
    (by decide) (by decide) (by decide) (by decide) (by decide) (by decide) (by decide)

set_option maxRecDepth 16384 in
/-- C9 counterexample: on a blob whose full section-3 delimiter occurs
twice, the glossary field is the text between the two occurrences, not all
text after the first occurrence as the claim states. -/
theorem c9_duplicate_delimiter_truncates :
    glossaryOf (parseSections blobDup3) = toL "C" ∧
      glossaryOf (parseSections blobDup3) ≠ pyStrip (allAfterFirst sec3full blobDup3) := by
  exact ⟨rfl, by decide⟩

/-- C9 amended: with duplicated delimiters the boundaries resolve by
repeated splitting at first occurrences: simplified is the text before the
first section-2 marker occurrence (section-1 label removed, stripped);
bullets is the text between the first and the second occurrence of the full
section-2 delimiter, cut at the first section-3 marker inside it and
stripped; glossary is the text between the first and the second occurrence
of the full section-3 delimiter, stripped. -/
theorem c9_first_occurrence_resolution (P X Y Z W : Str)
    (h1 : firstOcc sec2pfx (blob9 P X Y Z W) = some P.length)
    (h2 : firstOcc sec2full (blob9 P X Y Z W) = some P.length)
    (h3 : firstOcc sec2full
      (X ++ sec2full ++ Y ++ sec3full ++ Z ++ sec3full ++ W) = some X.length)
    (h4 : firstOcc sec3pfx X = none)
    (h5 : firstOcc sec3full (blob9 P X Y Z W) =
      some (P.length + sec2full.length + X.length + sec2full.length + Y.length))
    (h6 : firstOcc sec3full (Z ++ sec3full ++ W) = some Z.length) :
    parseSections (blob9 P X Y Z W) =
      Except.ok ⟨pyStrip (pythonReplace sec1full [] P), pyStrip X, pyStrip Z⟩ := by
  have htkP : (blob9 P X Y Z W).take P.length = P := by
    have hb : blob9 P X Y Z W =
        P ++ (sec2full ++ X ++ sec2full ++ Y ++ sec3full ++ Z ++ sec3full ++ W) := by
      simp [blob9, List.append_assoc]
    rw [hb]
    exact List.take_left _ _
  have hdropA : (blob9 P X Y Z W).drop (P.length + sec2full.length) =
      X ++ sec2full ++ Y ++ sec3full ++ Z ++ sec3full ++ W := by
    have hb : blob9 P X Y Z W = (P ++ sec2full) ++
        (X ++ sec2full ++ Y ++ sec3full ++ Z ++ sec3full ++ W) := by
      simp [blob9, List.append_assoc]
    rw [hb, show P.length + sec2full.length = (P ++ sec2full).length by
      simp only [List.length_append]; try omega]
    exact List.drop_left _ _
  have htkX : (X ++ sec2full ++ Y ++ sec3full ++ Z ++ sec3full ++ W).take X.length = X := by
    have hb : X ++ sec2full ++ Y ++ sec3full ++ Z ++ sec3full ++ W =
        X ++ (sec2full ++ Y ++ sec3full ++ Z ++ sec3full ++ W) := by
      simp [List.append_assoc]
    rw [hb]
    exact List.take_left _ _
  have htkG : (blob9 P X Y Z W).take
      (P.length + sec2full.length + X.length + sec2full.length + Y.length) =
      P ++ sec2full ++ X ++ sec2full ++ Y := by
    have hb : blob9 P X Y Z W = (P ++ sec2full ++ X ++ sec2full ++ Y) ++
        (sec3full ++ Z ++ sec3full ++ W) := by
      simp [blob9, List.append_assoc]
    rw [hb, show P.length + sec2full.length + X.length + sec2full.length + Y.length =
      (P ++ sec2full ++ X ++ sec2full ++ Y).length by simp only [List.length_append]; try omega]
    exact List.take_left _ _
  have hdropB : (blob9 P X Y Z W).drop
      (P.length + sec2full.length + X.length + sec2full.length + Y.length
        + sec3full.length) = Z ++ sec3full ++ W := by
    have hb : blob9 P X Y Z W = ((P ++ sec2full ++ X ++ sec2full ++ Y) ++ sec3full) ++
        (Z ++ sec3full ++ W) := by
      simp [blob9, List.append_assoc]
    rw [hb, show P.length + sec2full.length + X.length + sec2full.length + Y.length
        + sec3full.length = ((P ++ sec2full ++ X ++ sec2full ++ Y) ++ sec3full).length by
      simp only [List.length_append]; try omega]
    exact List.drop_left _ _
  have hdropZ : (Z ++ sec3full ++ W).drop (Z.length + sec3full.length) = W := by
    have hb : Z ++ sec3full ++ W = (Z ++ sec3full) ++ W := by
      simp [List.append_assoc]
    rw [hb, show Z.length + sec3full.length = (Z ++ sec3full).length by
      simp only [List.length_append]; try omega]
    exact List.drop_left _ _
  have htkZ : (Z ++ sec3full ++ W).take Z.length = Z := by
    have hb : Z ++ sec3full ++ W = Z ++ (sec3full ++ W) := by
      simp [List.append_assoc]
    rw [hb]
    exact List.take_left _ _
  have hs2p9 : pythonSplit sec2pfx (blob9 P X Y Z W) =
      (blob9 P X Y Z W).take P.length ::
        pythonSplit sec2pfx ((blob9 P X Y Z W).drop (P.length + sec2pfx.length)) :=
    pythonSplit_of_some _ _ _ (by decide) h1
  have hs2f9 : pythonSplit sec2full (blob9 P X Y Z W) =
      (blob9 P X Y Z W).take P.length ::
        (X ++ sec2full ++ Y ++ sec3full ++ Z ++ sec3full ++ W).take X.length ::
        pythonSplit sec2full
          ((X ++ sec2full ++ Y ++ sec3full ++ Z ++ sec3full ++ W).drop
            (X.length + sec2full.length)) := by
    rw [pythonSplit_of_some _ _ _ (by decide) h2, hdropA,
      pythonSplit_of_some _ _ _ (by decide) h3]
  have hs3f9 : pythonSplit sec3full (blob9 P X Y Z W) =
      (blob9 P X Y Z W).take
        (P.length + sec2full.length + X.length + sec2full.length + Y.length) ::
        (Z ++ sec3full ++ W).take Z.length ::
        pythonSplit sec3full ((Z ++ sec3full ++ W).drop (Z.length + sec3full.length)) := by
    rw [pythonSplit_of_some _ _ _ (by decide) h5, hdropB,
      pythonSplit_of_some _ _ _ (by decide) h6]
  have hbul9 : pythonSplit sec3pfx X = [X] := pythonSplit_of_none _ _ h4
  simp only [parseSections, hs2p9, List.headD_cons, htkP, hs2f9, hs3f9,
    List.get?_cons_succ, List.get?_cons_zero, htkX, htkZ, hbul9]

set_option maxRecDepth 16384 in
/-- C9 witness: concrete segments around duplicated delimiters. -/
theorem c9_first_occurrence_witness :
    parseSections (blob9 (toL "head") (toL "X1") (toL "Y1") (toL "Z1") (toL "W1")) =
      Except.ok ⟨pyStrip (pythonReplace sec1full [] (toL "head")), pyStrip (toL "X1"),
        pyStrip (toL "Z1")⟩ :=
  c9_first_occurrence_resolution (toL "head") (toL "X1") (toL "Y1") (toL "Z1") (toL "W1")
    (by decide) (by decide) (by decide) (by decide) (by decide) (by decide)

/-- Every chunk of the decomposition is non-empty. -/
theorem splitChunks_ne_nil (s : Str) : ∀ c ∈ splitChunks s, c ≠ [] := by
  induction s with
  | nil => intro c hc; exact absurd hc (List.not_mem_nil c)
  | cons c0 rest ih =>
    intro c hc
    have hs : splitChunks (c0 :: rest) =
        (match splitChunks rest with
         | [] => [[c0]]
         | ch :: chs => if isSpace c0 = wsB ch then (c0 :: ch) :: chs
                        else [c0] :: ch :: chs) := rfl
    rcases h : splitChunks rest with _ | ⟨ch, chs⟩
    · have hs2 : splitChunks (c0 :: rest) = [[c0]] := by rw [hs, h]
      rw [hs2] at hc
      rcases List.mem_singleton.mp hc with rfl
      simp
    · have hs2 : splitChunks (c0 :: rest) =
          if isSpace c0 = wsB ch then (c0 :: ch) :: chs else [c0] :: ch :: chs := by
        rw [hs, h]
      rw [hs2] at hc
      by_cases hcc : isSpace c0 = wsB ch
      · rw [if_pos hcc] at hc
        rcases List.mem_cons.mp hc with rfl | hc2
        · simp
        · exact ih c (by rw [h]; exact List.mem_cons_of_mem ch hc2)
      · rw [if_neg hcc] at hc
        rcases List.mem_cons.mp hc with rfl | hc2
        · simp
        · exact ih c (by rw [h]; exact hc2)

/-- Every chunk of the decomposition is a run of characters of a single
whitespace class. -/
theorem splitChunks_uniform (s : Str) :
    ∀ c ∈ splitChunks s, ∀ a ∈ c, isSpace a = wsB c := by
  induction s with
  | nil => intro c hc; exact absurd hc (List.not_mem_nil c)
  | cons c0 rest ih =>
    intro c hc
    have hs : splitChunks (c0 :: rest) =
        (match splitChunks rest with
         | [] => [[c0]]
         | ch :: chs => if isSpace c0 = wsB ch then (c0 :: ch) :: chs
                        else [c0] :: ch :: chs) := rfl
    rcases h : splitChunks rest with _ | ⟨ch, chs⟩
    · have hs2 : splitChunks (c0 :: rest) = [[c0]] := by rw [hs, h]
      rw [hs2] at hc
      rcases List.mem_singleton.mp hc with rfl
      intro a ha
      rcases List.mem_singleton.mp ha with rfl
      rfl
    · have hs2 : splitChunks (c0 :: rest) =
          if isSpace c0 = wsB ch then (c0 :: ch) :: chs else [c0] :: ch :: chs := by
        rw [hs, h]
      rw [hs2] at hc
      by_cases hcc : isSpace c0 = wsB ch
      · rw [if_pos hcc] at hc
        rcases List.mem_cons.mp hc with rfl | hc2
        · intro a ha
          show isSpace a = isSpace c0
          rcases List.mem_cons.mp ha with rfl | ha2
          · rfl
          · have := ih ch (by rw [h]; exact List.mem_cons_self ch chs) a ha2
            rw [this, hcc]
        · exact ih c (by rw [h]; exact List.mem_cons_of_mem ch hc2)
      · rw [if_neg hcc] at hc
        rcases List.mem_cons.mp hc with rfl | hc2
        · intro a ha
          rcases List.mem_singleton.mp ha with rfl
          rfl
        · exact ih c (by rw [h]; exact hc2)

/-- Adjacent chunks of the decomposition alternate whitespace class. -/
theorem splitChunks_chain (s : Str) :
    (splitChunks s).Chain' (fun a b => wsB a ≠ wsB b) := by
  induction s with
  | nil => exact List.chain'_nil
  | cons c0 rest ih =>
    have hs : splitChunks (c0 :: rest) =
        (match splitChunks rest with
         | [] => [[c0]]
         | ch :: chs => if isSpace c0 = wsB ch then (c0 :: ch) :: chs
                        else [c0] :: ch :: chs) := rfl
    rcases h : splitChunks rest with _ | ⟨ch, chs⟩
    · have hs2 : splitChunks (c0 :: rest) = [[c0]] := by rw [hs, h]
      rw [hs2]
      exact List.chain'_singleton _
    · have hs2 : splitChunks (c0 :: rest) =
          if isSpace c0 = wsB ch then (c0 :: ch) :: chs else [c0] :: ch :: chs := by
        rw [hs, h]
      rw [hs2]
      rw [h] at ih
      by_cases hcc : isSpace c0 = wsB ch
      · rw [if_pos hcc]
        rcases chs with _ | ⟨d, ds⟩
        · exact List.chain'_singleton _
        · refine List.chain'_cons.mpr ⟨?_, (List.chain'_cons.mp ih).2⟩
          have hrel := (List.chain'_cons.mp ih).1
          show isSpace c0 ≠ wsB d
          rw [hcc]
          exact hrel
      · rw [if_neg hcc]
        exact List.chain'_cons.mpr ⟨hcc, ih⟩

/-- Prepending one uniform run whose class differs from the head of the
rest splits off exactly that run. -/
theorem splitChunks_prepend_run (c : Str) : ∀ t : Str,
    c ≠ [] → (∀ a ∈ c, isSpace a = wsB c) →
    (∀ d ds, t = d :: ds → ¬ isSpace d = wsB c) →
    splitChunks (c ++ t) = c :: splitChunks t := by
  induction c with
  | nil => intro t hc _ _; exact absurd rfl hc
  | cons x c' ih =>
    intro t _ huni ht
    rcases hc' : c' with _ | ⟨y, c''⟩
    · show splitChunks (x :: t) = [x] :: splitChunks t
      have hs : splitChunks (x :: t) =
          (match splitChunks t with
           | [] => [[x]]
           | ch :: chs => if isSpace x = wsB ch then (x :: ch) :: chs
                          else [x] :: ch :: chs) := rfl
      rcases h : splitChunks t with _ | ⟨ch, chs⟩
      · have hs2 : splitChunks (x :: t) = [[x]] := by rw [hs, h]
        rw [hs2]
      · have hs2 : splitChunks (x :: t) =
            if isSpace x = wsB ch then (x :: ch) :: chs else [x] :: ch :: chs := by
          rw [hs, h]
        rcases t with _ | ⟨d, ds⟩
        · exact absurd h (by simp [splitChunks])
        · obtain ⟨t', chs', hshape⟩ := splitChunks_cons_shape d ds
          rw [h] at hshape
          rcases List.cons.injEq .. ▸ hshape with ⟨rfl, rfl⟩
          rw [hs2, if_neg ?_]
          intro hxd
          refine ht d ds rfl ?_
          show isSpace d = isSpace x
          rw [hxd]
          rfl
    · subst hc'
      have hxy : isSpace y = isSpace x := by
        have h1 := huni y (List.mem_cons_of_mem x (List.mem_cons_self y _))
        have h2 := huni x (List.mem_cons_self x _)
        rw [h1, h2]
      have ih2 : splitChunks ((y :: c'') ++ t) = (y :: c'') :: splitChunks t := by
        refine ih t (by simp) ?_ ?_
        · intro a ha
          show isSpace a = isSpace y
          have := huni a (List.mem_cons_of_mem x ha)
          rw [this]
          show isSpace x = isSpace y
          rw [hxy]
        · intro d ds hd
          have hmain := ht d ds hd
          intro hdy
          refine hmain ?_
          show isSpace d = isSpace x
          rw [← hxy]
          exact hdy
      show splitChunks (x :: ((y :: c'') ++ t)) = (x :: y :: c'') :: splitChunks t
      have hs : splitChunks (x :: ((y :: c'') ++ t)) =
          (match splitChunks ((y :: c'') ++ t) with
           | [] => [[x]]
           | ch :: chs => if isSpace x = wsB ch then (x :: ch) :: chs
                          else [x] :: ch :: chs) := rfl
      have hs2 : splitChunks (x :: ((y :: c'') ++ t)) =
          if isSpace x = wsB (y :: c'') then (x :: y :: c'') :: splitChunks t
          else [x] :: (y :: c'') :: splitChunks t := by
        rw [hs, ih2]
      rw [hs2, if_pos ?_]
      show isSpace x = isSpace y
      rw [hxy]

/-- Rejoining an alternating list of uniform non-empty runs and splitting
again recovers the same list. -/
theorem splitChunks_flatten (l : List Str) :
    (∀ c ∈ l, c ≠ []) → (∀ c ∈ l, ∀ a ∈ c, isSpace a = wsB c) →
    l.Chain' (fun a b => wsB a ≠ wsB b) →
    splitChunks l.flatten = l := by
  induction l with
  | nil => intro _ _ _; rfl
  | cons c rest ih =>
    intro hne huni hch
    rw [List.flatten_cons]
    rw [splitChunks_prepend_run c rest.flatten (hne c (List.mem_cons_self c rest))
      (huni c (List.mem_cons_self c rest)) ?_]
    · rw [ih (fun d hd => hne d (List.mem_cons_of_mem c hd))
        (fun d hd => huni d (List.mem_cons_of_mem c hd)) hch.tail]
    · intro d ds hd
      rcases rest with _ | ⟨c2, rest'⟩
      · simp at hd
      · have hc2 : c2 ≠ [] := hne c2 (List.mem_cons_of_mem c (List.mem_cons_self c2 rest'))
        rcases c2 with _ | ⟨e, es⟩
        · exact absurd rfl hc2
        · have hrel := (List.chain'_cons.mp hch).1
          rw [List.flatten_cons, List.cons_append] at hd
          rcases List.cons.injEq .. ▸ hd with ⟨heq, _⟩
          intro hde
          refine hrel ?_
          show wsB c = wsB (e :: es)
          rw [show wsB (e :: es) = isSpace e from rfl, heq, hde]

/-- Flattening the chunk decomposition recovers the string. -/
theorem splitChunks_flatten_self (s : Str) : (splitChunks s).flatten = s := by
  induction s with
  | nil => rfl
  | cons c0 rest ih =>
    have hs : splitChunks (c0 :: rest) =
        (match splitChunks rest with
         | [] => [[c0]]
         | ch :: chs => if isSpace c0 = wsB ch then (c0 :: ch) :: chs
                        else [c0] :: ch :: chs) := rfl
    rcases h : splitChunks rest with _ | ⟨ch, chs⟩
    · have hs2 : splitChunks (c0 :: rest) = [[c0]] := by rw [hs, h]
      have hrest : rest = [] := by rw [← ih, h]; rfl
      rw [hs2, hrest]
      rfl
    · have hs2 : splitChunks (c0 :: rest) =
          if isSpace c0 = wsB ch then (c0 :: ch) :: chs else [c0] :: ch :: chs := by
        rw [hs, h]
      rw [h] at ih
      by_cases hcc : isSpace c0 = wsB ch
      · rw [hs2, if_pos hcc]
        show (c0 :: ch) ++ chs.flatten = c0 :: rest
        rw [List.cons_append]
        rw [show ch ++ chs.flatten = (ch :: chs).flatten from rfl, ih]
      · rw [hs2, if_neg hcc]
        show [c0] ++ (ch :: chs).flatten = c0 :: rest
        rw [ih]
        rfl

/-- A character of a chunk of the decomposition is a character of the
string. -/
theorem mem_of_mem_splitChunks (s : Str) (c : Str) (hc : c ∈ splitChunks s)
    (a : Char) (ha : a ∈ c) : a ∈ s := by
  rw [← splitChunks_flatten_self s]
  exact List.mem_flatten.mpr ⟨c, hc, ha⟩

/-- Every character emitted by tab expansion is a space or a character of
the input. -/
theorem mem_expandtabsAux (s : Str) : ∀ (col : Nat) (d : Char),
    d ∈ expandtabsAux s col → d = ' ' ∨ d ∈ s := by
  induction s with
  | nil => intro col d hd; exact absurd hd (List.not_mem_nil d)
  | cons c rest ih =>
    intro col d hd
    have he : expandtabsAux (c :: rest) col =
        (if c = '\t' then
          List.replicate (8 - col % 8) ' ' ++ expandtabsAux rest (col + (8 - col % 8))
         else if c = '\n' ∨ c = '\r' then c :: expandtabsAux rest 0
         else c :: expandtabsAux rest (col + 1)) := rfl
    rw [he] at hd
    by_cases ht : c = '\t'
    · rw [if_pos ht] at hd
      rcases List.mem_append.mp hd with h1 | h1
      · exact Or.inl (List.eq_of_mem_replicate h1)
      · rcases ih _ d h1 with h2 | h2
        · exact Or.inl h2
        · exact Or.inr (List.mem_cons_of_mem c h2)
    · rw [if_neg ht] at hd
      by_cases hn : c = '\n' ∨ c = '\r'
      · rw [if_pos hn] at hd
        rcases List.mem_cons.mp hd with rfl | h1
        · exact Or.inr (List.mem_cons_self d rest)
        · rcases ih _ d h1 with h2 | h2
          · exact Or.inl h2
          · exact Or.inr (List.mem_cons_of_mem c h2)
      · rw [if_neg hn] at hd
        rcases List.mem_cons.mp hd with rfl | h1
        · exact Or.inr (List.mem_cons_self d rest)
        · rcases ih _ d h1 with h2 | h2
          · exact Or.inl h2
          · exact Or.inr (List.mem_cons_of_mem c h2)

/-- When the Unicode whitespace class and the six-character table agree on
every character of a text, they agree on every character of its munged
form: munging only expands tabs into spaces and translates table
characters to the space, on which the two classes agree. -/
theorem munge_coinc (t : Str) (hws : ∀ c ∈ t, isStripSpace c = isSpace c) :
    ∀ a ∈ munge t, isStripSpace a = isSpace a := by
  intro a ha
  unfold munge at ha
  obtain ⟨d, hd, hda⟩ := List.mem_map.mp ha
  rcases hsd : isSpace d with _ | _
  · rw [if_neg (by rw [hsd]; exact Bool.false_ne_true)] at hda
    subst hda
    rcases mem_expandtabsAux t 0 d hd with h2 | h2
    · subst h2; decide
    · exact hws d h2
  · rw [if_pos hsd] at hda
    subst hda
    decide

/-- The wrap loop on an empty chunk list emits nothing. -/
theorem wrapLoopF_nil (w fuel : Nat) (first : Bool) : wrapLoopF w fuel [] first = [] := by
  rcases fuel with _ | fuel <;> rfl

/-- Chunk character counts add over append. -/
theorem sumLen_append (l₁ l₂ : List Str) : sumLen (l₁ ++ l₂) = sumLen l₁ + sumLen l₂ := by
  simp [sumLen]

/-- The taken line of the inner while when the next chunk fits. -/
theorem takeLine_fst (w n : Nat) (ch : Str) (rest : List Str)
    (hfit : n + ch.length ≤ w) :
    (takeLineChunks w n (ch :: rest)).1 =
      ch :: (takeLineChunks w (n + ch.length) rest).1 := by
  rw [takeLineChunks_cons, if_pos hfit]

/-- The remainder of the inner while when the next chunk fits. -/
theorem takeLine_snd (w n : Nat) (ch : Str) (rest : List Str)
    (hfit : n + ch.length ≤ w) :
    (takeLineChunks w n (ch :: rest)).2 =
      (takeLineChunks w (n + ch.length) rest).2 := by
  rw [takeLineChunks_cons, if_pos hfit]

/-- The inner while splits the chunk list into taken prefix and remainder. -/
theorem takeLineChunks_append (w : Nat) (l : List Str) : ∀ n : Nat,
    (takeLineChunks w n l).1 ++ (takeLineChunks w n l).2 = l := by
  induction l with
  | nil => intro n; rfl
  | cons ch rest ih =>
    intro n
    by_cases hfit : n + ch.length ≤ w
    · rw [takeLine_fst w n ch rest hfit, takeLine_snd w n ch rest hfit,
        List.cons_append, ih]
    · rw [takeLineChunks_cons, if_neg hfit]
      rfl

/-- handleLong does nothing when every remaining chunk fits the width. -/
theorem handleLong_id_of_small (w : Nat) (p : List Str × List Str)
    (h : ∀ c ∈ p.2, c.length ≤ w) : handleLong w p = p := by
  rcases p with ⟨p1, _ | ⟨r0, rrest⟩⟩
  · rw [handleLong_nil]
  · rw [handleLong_cons, if_neg ?_]
    have := h r0 (List.mem_cons_self r0 rrest)
    omega

/-- Dropping the trailing whitespace chunk yields a prefix of the line. -/
theorem dropTrailingWs_prefix (cur : List Str) : dropTrailingWs cur <+: cur := by
  induction cur using List.reverseRecOn with
  | nil => exact List.prefix_refl _
  | append_singleton l a _ =>
    have heq : dropTrailingWs (l ++ [a]) =
        if pyStrip a = [] then (l ++ [a]).dropLast else l ++ [a] := by
      unfold dropTrailingWs
      rw [List.getLast?_concat]
    rw [heq]
    by_cases hstrip : pyStrip a = []
    · rw [if_pos hstrip]
      exact List.dropLast_prefix _
    · rw [if_neg hstrip]

/-- Dropping the trailing chunk that strips to nothing does not change the
word chunks of the line, as long as the Unicode whitespace class and the
six-character table agree on the characters of the line (the dropped chunk
is then a whitespace chunk of the wordsep classification too). -/
theorem dropTrailingWs_filter (cur : List Str) (hne : ∀ c ∈ cur, c ≠ [])
    (hco : ∀ c ∈ cur, ∀ a ∈ c, isStripSpace a = isSpace a) :
    (dropTrailingWs cur).filter (fun c => !(wsB c)) =
      cur.filter (fun c => !(wsB c)) := by
  induction cur using List.reverseRecOn with
  | nil => rfl
  | append_singleton l a _ =>
    have heq : dropTrailingWs (l ++ [a]) =
        if pyStrip a = [] then (l ++ [a]).dropLast else l ++ [a] := by
      unfold dropTrailingWs
      rw [List.getLast?_concat]
    rw [heq]
    by_cases hstrip : pyStrip a = []
    · rw [if_pos hstrip, List.dropLast_concat, List.filter_append]
      have hane : a ≠ [] := hne a (by simp)
      have haco : ∀ b ∈ a, isStripSpace b = isSpace b := hco a (by simp)
      have hwa : (!(wsB a)) = false := by
        rcases a with _ | ⟨e, es⟩
        · exact absurd rfl hane
        · have he1 : isStripSpace e = true :=
            (pyStrip_eq_nil_iff _).mp hstrip e (List.mem_cons_self e es)
          have he : isSpace e = true := by
            rw [← haco e (List.mem_cons_self e es)]
            exact he1
          rw [show wsB (e :: es) = isSpace e from rfl, he]
          rfl
      simp [List.filter_cons, hwa]
    · rw [if_neg hstrip]

/-- One iteration of the wrap loop over a cleaned chunk list: the words of
the line it emits together with the recursive words are the word chunks,
assuming the recursion is already correct below the fuel. -/
theorem wrapStep (w fuel : Nat)
    (ih : ∀ (chunks : List Str) (first : Bool),
      sumLen chunks + chunks.length < fuel →
      (∀ c ∈ chunks, c ≠ []) →
      (∀ c ∈ chunks, ∀ a ∈ c, isSpace a = wsB c) →
      (∀ c ∈ chunks, ∀ a ∈ c, isStripSpace a = isSpace a) →
      chunks.Chain' (fun a b => wsB a ≠ wsB b) →
      (∀ c ∈ chunks, c.length ≤ w) →
      ((wrapLoopF w fuel chunks first).map wordsOf).flatten =
        chunks.filter (fun c => !(wsB c)))
    (chunks1 : List Str) (first : Bool)
    (hm1 : sumLen chunks1 + chunks1.length ≤ fuel)
    (hne1 : ∀ c ∈ chunks1, c ≠ [])
    (huni1 : ∀ c ∈ chunks1, ∀ a ∈ c, isSpace a = wsB c)
    (hco1 : ∀ c ∈ chunks1, ∀ a ∈ c, isStripSpace a = isSpace a)
    (hch1 : chunks1.Chain' (fun a b => wsB a ≠ wsB b))
    (hsm1 : ∀ c ∈ chunks1, c.length ≤ w) :
    ((if dropTrailingWs (handleLong w (takeLineChunks w 0 chunks1)).1 = []
      then wrapLoopF w fuel (handleLong w (takeLineChunks w 0 chunks1)).2 first
      else (dropTrailingWs (handleLong w (takeLineChunks w 0 chunks1)).1).flatten ::
        wrapLoopF w fuel (handleLong w (takeLineChunks w 0 chunks1)).2 false).map
        wordsOf).flatten = chunks1.filter (fun c => !(wsB c)) := by
  have happ := takeLineChunks_append w chunks1 0
  have hsm2 : ∀ c ∈ (takeLineChunks w 0 chunks1).2, c.length ≤ w := by
    intro c hcm
    refine hsm1 c ?_
    rw [← happ]
    exact List.mem_append_right _ hcm
  rw [handleLong_id_of_small w _ hsm2]
  rcases chunks1 with _ | ⟨c1, r1⟩
  · rw [takeLineChunks_nil]
    rw [if_pos (by rfl)]
    rw [wrapLoopF_nil]
    rfl
  · have hfit : 0 + c1.length ≤ w := by
      have := hsm1 c1 (List.mem_cons_self c1 r1)
      omega
    rw [takeLine_fst w 0 c1 r1 hfit, takeLine_snd w 0 c1 r1 hfit]
    rw [takeLine_fst w 0 c1 r1 hfit, takeLine_snd w 0 c1 r1 hfit] at happ
    set P1 := (takeLineChunks w (0 + c1.length) r1).1 with hP1def
    set P2 := (takeLineChunks w (0 + c1.length) r1).2 with hP2def
    have hsub : ∀ c, c ∈ (c1 :: P1) ++ P2 → c ∈ c1 :: r1 := by
      intro c hcm
      rw [← happ]
      exact hcm
    have hne2 : ∀ c ∈ c1 :: P1, c ≠ [] :=
      fun c hcm => hne1 c (hsub c (List.mem_append_left _ hcm))
    have huni2 : ∀ c ∈ c1 :: P1, ∀ a ∈ c, isSpace a = wsB c :=
      fun c hcm => huni1 c (hsub c (List.mem_append_left _ hcm))
    have hco2 : ∀ c ∈ c1 :: P1, ∀ a ∈ c, isStripSpace a = isSpace a :=
      fun c hcm => hco1 c (hsub c (List.mem_append_left _ hcm))
    have hchApp : ((c1 :: P1) ++ P2).Chain' (fun a b => wsB a ≠ wsB b) := by
      rw [happ]
      exact hch1
    have hch2 : (c1 :: P1).Chain' (fun a b => wsB a ≠ wsB b) :=
      (List.chain'_append.mp hchApp).1
    have hchP2 : P2.Chain' (fun a b => wsB a ≠ wsB b) :=
      (List.chain'_append.mp hchApp).2.1
    have hneP2 : ∀ c ∈ P2, c ≠ [] :=
      fun c hcm => hne1 c (hsub c (List.mem_append_right _ hcm))
    have huniP2 : ∀ c ∈ P2, ∀ a ∈ c, isSpace a = wsB c :=
      fun c hcm => huni1 c (hsub c (List.mem_append_right _ hcm))
    have hcoP2 : ∀ c ∈ P2, ∀ a ∈ c, isStripSpace a = isSpace a :=
      fun c hcm => hco1 c (hsub c (List.mem_append_right _ hcm))
    have hsmP2 : ∀ c ∈ P2, c.length ≤ w :=
      fun c hcm => hsm1 c (hsub c (List.mem_append_right _ hcm))
    have hmeq : sumLen ((c1 :: P1) ++ P2) = sumLen (c1 :: r1) := by rw [happ]
    have hleq : ((c1 :: P1) ++ P2).length = (c1 :: r1).length := by rw [happ]
    have hc1len : 1 ≤ c1.length :=
      List.length_pos.mpr (hne1 c1 (List.mem_cons_self c1 r1))
    have hm2 : sumLen P2 + P2.length < fuel := by
      rw [sumLen_append] at hmeq
      rw [List.length_append] at hleq
      have h1 : sumLen (c1 :: P1) = c1.length + sumLen P1 := by simp [sumLen]
      have h2 : (c1 :: P1).length = P1.length + 1 := by simp
      omega
    have hcf : (dropTrailingWs (c1 :: P1)).filter (fun c => !(wsB c)) =
        (c1 :: P1).filter (fun c => !(wsB c)) :=
      dropTrailingWs_filter (c1 :: P1) hne2 hco2
    have hRHS : (c1 :: r1).filter (fun c => !(wsB c)) =
        (c1 :: P1).filter (fun c => !(wsB c)) ++ P2.filter (fun c => !(wsB c)) := by
      rw [← happ, List.filter_append]
    by_cases hcur : dropTrailingWs (c1 :: P1) = []
    · rw [if_pos hcur, hRHS]
      have hfe : (c1 :: P1).filter (fun c => !(wsB c)) = [] := by
        rw [← hcf, hcur]
        rfl
      rw [hfe, List.nil_append]
      exact ih P2 first hm2 hneP2 huniP2 hcoP2 hchP2 hsmP2
    · rw [if_neg hcur, List.map_cons, List.flatten_cons]
      have hpre := dropTrailingWs_prefix (c1 :: P1)
      have hcur_ne : ∀ c ∈ dropTrailingWs (c1 :: P1), c ≠ [] :=
        fun c hcm => hne2 c (hpre.subset hcm)
      have hcur_uni : ∀ c ∈ dropTrailingWs (c1 :: P1), ∀ a ∈ c, isSpace a = wsB c :=
        fun c hcm => huni2 c (hpre.subset hcm)
      have hcur_ch : (dropTrailingWs (c1 :: P1)).Chain' (fun a b => wsB a ≠ wsB b) :=
        hch2.prefix hpre
      have hw : wordsOf (dropTrailingWs (c1 :: P1)).flatten =
          (dropTrailingWs (c1 :: P1)).filter (fun c => !(wsB c)) := by
        unfold wordsOf
        rw [splitChunks_flatten _ hcur_ne hcur_uni hcur_ch]
      rw [hw, hcf, hRHS]
      congr 1
      exact ih P2 false hm2 hneP2 huniP2 hcoP2 hchP2 hsmP2

/-- Joining the words of all emitted lines of the wrap loop recovers
exactly the word chunks, when every chunk fits within the width and the
Unicode whitespace class agrees with the six-character table on the
chunk characters, so that the drop_whitespace strip tests remove only
wordsep whitespace chunks. -/
theorem wrapLoopF_words (w : Nat) : ∀ (fuel : Nat) (chunks : List Str) (first : Bool),
    sumLen chunks + chunks.length < fuel →
    (∀ c ∈ chunks, c ≠ []) →
    (∀ c ∈ chunks, ∀ a ∈ c, isSpace a = wsB c) →
    (∀ c ∈ chunks, ∀ a ∈ c, isStripSpace a = isSpace a) →
    chunks.Chain' (fun a b => wsB a ≠ wsB b) →
    (∀ c ∈ chunks, c.length ≤ w) →
    ((wrapLoopF w fuel chunks first).map wordsOf).flatten =
      chunks.filter (fun c => !(wsB c)) := by
  intro fuel
  induction fuel with
  | zero => intro chunks first hm _ _ _ _ _; exact absurd hm (Nat.not_lt_zero _)
  | succ fuel ih =>
    intro chunks first hm hne huni hco hch hsm
    rcases chunks with _ | ⟨ch, rest⟩
    · rfl
    · rw [wrapLoopF_cons]
      have hchlen : 1 ≤ ch.length :=
        List.length_pos.mpr (hne ch (List.mem_cons_self ch rest))
      have hsums : sumLen (ch :: rest) = ch.length + sumLen rest := by simp [sumLen]
      have hlens : (ch :: rest).length = rest.length + 1 := by simp
      by_cases hdrop : first = false ∧ pyStrip ch = []
      · simp only [if_pos hdrop]
        have hwch : wsB ch = true := by
          rcases hhc : ch with _ | ⟨e, es⟩
          · exact absurd hhc (hne ch (List.mem_cons_self ch rest))
          · have he1 : isStripSpace e = true := (pyStrip_eq_nil_iff _).mp
              (by rw [← hhc]; exact hdrop.2) e (List.mem_cons_self e es)
            have he : isSpace e = true := by
              rw [← hco ch (List.mem_cons_self ch rest) e
                (by rw [hhc]; exact List.mem_cons_self e es)]
              exact he1
            rw [show wsB (e :: es) = isSpace e from rfl, he]
        have hfil0 : (ch :: rest).filter (fun c => !(wsB c)) =
            rest.filter (fun c => !(wsB c)) := by
          simp [List.filter_cons, hwch]
        rw [hfil0]
        refine wrapStep w fuel ih rest first ?_
          (fun c hcm => hne c (List.mem_cons_of_mem ch hcm))
          (fun c hcm => huni c (List.mem_cons_of_mem ch hcm))
          (fun c hcm => hco c (List.mem_cons_of_mem ch hcm))
          hch.tail
          (fun c hcm => hsm c (List.mem_cons_of_mem ch hcm))
        omega
      · simp only [if_neg hdrop]
        refine wrapStep w fuel ih (ch :: rest) first ?_ hne huni hco hch hsm
        omega

/-- C5 amended: for text free of hyphens and of Unicode whitespace outside
the six-character table, all of whose whitespace runs and words fit within
the wrap width, the wrap never splits mid-word: the words of the wrapped
lines, in order, are exactly the words of the (munged) source text.  The
hyphen-free hypothesis marks where the chunk model is faithful to CPython's
wordsep pattern; the whitespace hypothesis makes the Unicode strip tests of
drop_whitespace coincide with the wordsep whitespace classification, so
only whitespace chunks are dropped (a no-break space, stripped by
str.strip but a word character to wordsep, would be dropped from a line
end with its word); the run-length hypothesis excludes the
break_long_words branch, which the counterexample shows splitting a
101-character word mid-word. -/
theorem c5_wrap_breaks_on_whitespace (w : Nat) (t : Str)
    (_hh : ('-' : Char) ∉ t)
    (hws : ∀ c ∈ t, isStripSpace c = isSpace c)
    (hsmall : ∀ c ∈ splitChunks (munge t), c.length ≤ w) :
    ((pyWrap w t).map wordsOf).flatten = wordsOf (munge t) := by
  have hco : ∀ c ∈ splitChunks (munge t), ∀ a ∈ c, isStripSpace a = isSpace a :=
    fun c hc a ha => munge_coinc t hws a (mem_of_mem_splitChunks (munge t) c hc a ha)
  show ((wrapLoopF w
      (sumLen (splitChunks (munge t)) + (splitChunks (munge t)).length + 1)
      (splitChunks (munge t)) true).map wordsOf).flatten = wordsOf (munge t)
  rw [show wordsOf (munge t) =
    (splitChunks (munge t)).filter (fun c => !(wsB c)) from rfl]
  exact wrapLoopF_words w _ _ true (Nat.lt_succ_self _)
    (splitChunks_ne_nil _) (splitChunks_uniform _) hco (splitChunks_chain _) hsmall

/-- C5 witness: a concrete two-word text wraps with its words intact. -/
theorem c5_wrap_witness :
    ((pyWrap 100 (toL "alpha beta")).map wordsOf).flatten =
      wordsOf (munge (toL "alpha beta")) :=
  c5_wrap_breaks_on_whitespace 100 (toL "alpha beta") (by decide) (by decide) (by decide)
